import Mathlib

/-!
# Line wrapping and table layout of maroto (`internal/text.go`, `internal/tablelist.go`)

A shallow embedding of the two source files and theorems about it.

Modelling conventions.

* A Go `string` is a `List Char`: the sequence of runes that `for _, v := range s`
  visits on valid UTF-8, so `string(v)` is `[v]`, `a + b` is `a ++ b` and
  `s[i:]` at a rune boundary is a suffix of the list.
* A Go `float64` is a rational number: finite values, exact arithmetic, the
  comparisons `<` and `>` of the source. Rounding, infinities and NaN are not
  modelled; a division by zero, which Go answers with an infinity or NaN, is
  outside the model.
* The collaborators the code reaches through interfaces (`fpdf.Fpdf`, `Font`,
  `Text`, `MarotoGridPart`) are records of functions; their answers are
  arbitrary.
* A loop of the source that may run forever is run with a step budget and
  returns `none` when the budget is used up.
-/

namespace Maroto

/-- A Go string holding valid UTF-8, as its sequence of runes. -/
abbrev Str := List Char

/-- Modelled from the spec: `consts.Align` of `pkg/consts`, which is not among the
source files; the horizontal alignment (left/center/right) of the data model, and
the zero value of the Go type. -/
inductive Align
  | Unset
  | Left
  | Center
  | Right
  deriving DecidableEq, Repr

/-- Modelled from the spec: `consts.Family` of `pkg/consts`, which is not among the
source files; the five core families `textToUnicode` names, and any other family. -/
inductive Family
  | Arial
  | Helvetica
  | Symbol
  | ZapBats
  | Courier
  | Custom (name : String)
  deriving DecidableEq, Repr

/-- Modelled from the spec: `consts.Style` of `pkg/consts`, which is not among the
source files (normal/bold/italic/etc.), and the zero value of the Go type. -/
inductive Style
  | Unset
  | Normal
  | Bold
  | Italic
  | BoldItalic
  deriving DecidableEq, Repr

/-- Modelled from the spec: `color.Color` of `pkg/color`, which is not among the
source files. -/
structure Color where
  Red : Int
  Green : Int
  Blue : Int
  deriving DecidableEq, Repr

/-- Modelled from the spec: `color.NewWhite` of `pkg/color`, which is not among the
source files. -/
def NewWhite : Color := ⟨255, 255, 255⟩

/-- Modelled from the spec: `props.Text` of `pkg/props`, which is not among the source
files; the TextStyle of the data model with the fields the two files read. -/
structure TextProp where
  Top : ℚ
  Family : Family
  Style : Style
  Size : ℚ
  Align : Align
  Extrapolate : Bool
  VerticalPadding : ℚ
  Color : Color

/-- The `Cell` a text is drawn in: the fields `Add` reads. -/
structure Cell where
  X : ℚ
  Y : ℚ
  Width : ℚ
  Height : ℚ

/-- The part of `fpdf.Fpdf` that `text.go` calls, as answered during one call of `Add`
or `GetLinesQuantity` (after `SetFont` selected the style's font). -/
structure Fpdf where
  /-- `GetStringWidth(s)`. -/
  GetStringWidth : Str → ℚ
  /-- `Err()`. -/
  Err : Bool
  /-- `UnicodeTranslatorFromDescriptor("")`. -/
  UnicodeTranslator : Str → Str
  /-- `GetMargins()`: left, top, right, bottom. -/
  GetMargins : ℚ × ℚ × ℚ × ℚ

/-- The part of `Font` that `text.go` reads after `SetFont`. -/
structure Font where
  /-- The size component of `GetFont()`. -/
  GetFontSize : ℚ
  /-- `GetScaleFactor()`. -/
  GetScaleFactor : ℚ

/-- The loop of `getLineMaxStr`: `lineText` is the accumulated line, the list is the
part of `unicodeText` still to visit (`unicodeText[i:]`). -/
def getLineMaxStrLoop (pdf : Fpdf) (cellWidth : ℚ) : Str → Str → Str × Str
  | lineText, [] => (lineText, [])
  | lineText, v :: rest =>
    if pdf.GetStringWidth (lineText ++ [v]) > cellWidth then
      (lineText, v :: rest)
    else
      getLineMaxStrLoop pdf cellWidth (lineText ++ [v]) rest

/-- `getLineMaxStr`: the longest prefix whose every extension passed the width test,
and the rest. -/
def getLineMaxStr (pdf : Fpdf) (cellWidth : ℚ) (unicodeText : Str) : Str × Str :=
  getLineMaxStrLoop pdf cellWidth [] unicodeText

/-- The `for { ... }` loop of `splitText`, run for at most `fuel` iterations;
`none` when the budget is used up before the `break`. -/
def splitTextLoop (pdf : Fpdf) (cellWidth : ℚ) : Nat → Str → List Str → Option (List Str)
  | 0, _, _ => none
  | fuel + 1, unicodeText, sp =>
    let r := getLineMaxStr pdf cellWidth unicodeText
    if r.2 = [] then
      some (sp ++ [r.1])
    else
      splitTextLoop pdf cellWidth fuel r.2 (sp ++ [r.1])

/-- `splitText` with an explicit iteration budget. -/
def splitTextFuel (fuel : Nat) (pdf : Fpdf) (cellWidth : ℚ) (unicodeText : Str) :
    Option (List Str) :=
  if pdf.Err then some [unicodeText] else splitTextLoop pdf cellWidth fuel unicodeText []

/-- `splitText`: the budget `length + 1` is enough whenever the loop ends at all
(`splitText_none_iff`), so `none` means that the source loops forever. -/
def splitText (pdf : Fpdf) (cellWidth : ℚ) (unicodeText : Str) : Option (List Str) :=
  splitTextFuel (unicodeText.length + 1) pdf cellWidth unicodeText

/-- The loop state of `getLines`. -/
structure LinesState where
  lines : List Str
  currentlySize : ℚ
  actualLine : Nat

/-- One iteration of the loop of `getLines`. -/
def getLinesStep (pdf : Fpdf) (colWidth : ℚ) (st : LinesState) (word : Str) : LinesState :=
  if pdf.GetStringWidth (word ++ [' ']) + st.currentlySize < colWidth then
    { lines := st.lines.set st.actualLine (st.lines.getD st.actualLine [] ++ word ++ [' '])
      currentlySize := st.currentlySize + pdf.GetStringWidth (word ++ [' '])
      actualLine := st.actualLine }
  else
    { lines := (st.lines ++ [[]]).set (st.actualLine + 1)
        ((st.lines ++ [[]]).getD (st.actualLine + 1) [] ++ word ++ [' '])
      currentlySize := pdf.GetStringWidth (word ++ [' '])
      actualLine := st.actualLine + 1 }

/-- `getLines`. -/
def getLines (pdf : Fpdf) (words : List Str) (colWidth : ℚ) : List Str :=
  (words.foldl (getLinesStep pdf colWidth) ⟨[[]], 0, 0⟩).lines

/-- `textToUnicode`. The translator's answer is typed as a sequence of runes, like every
string here: a translated string that is not valid UTF-8 (a byte above 0x7f, which Go's
`range` visits as U+FFFD and `string(v)` re-encodes in three bytes) is outside this type;
there the string `getLineMaxStr` measures is not the one `stringWidth` measures. -/
def textToUnicode (pdf : Fpdf) (txt : Str) (props : TextProp) : Str :=
  if props.Family = Family.Arial ∨ props.Family = Family.Helvetica ∨
      props.Family = Family.Symbol ∨ props.Family = Family.ZapBats ∨
      props.Family = Family.Courier then
    pdf.UnicodeTranslator txt
  else
    txt

/-- A call `pdf.Text(x, y, text)`. -/
structure TextCall where
  x : ℚ
  y : ℚ
  text : Str

/-- `addLine`: the one `pdf.Text` call it makes. -/
def addLine (pdf : Fpdf) (textProp : TextProp) (xColOffset colWidth yColOffset textWidth : ℚ)
    (text : Str) : TextCall :=
  let left := pdf.GetMargins.1
  let top := pdf.GetMargins.2.1
  if textProp.Align = Align.Left then
    ⟨xColOffset + left, yColOffset + top, text⟩
  else
    let modifier : ℚ := if textProp.Align = Align.Right then 1 else 2
    let dx := (colWidth - textWidth) / modifier
    ⟨dx + xColOffset + left, yColOffset + top, text⟩

/-- The `for index, line := range lines` loop of `Add`. -/
def addLinesLoop (pdf : Fpdf) (font : Font) (textProp : TextProp) (cellX cellWidth cellY : ℚ) :
    Nat → ℚ → List Str → List TextCall
  | _, _, [] => []
  | index, accumulateOffsetY, line :: rest =>
    let lineWidth := pdf.GetStringWidth line
    let textHeight := font.GetFontSize / font.GetScaleFactor
    addLine pdf textProp cellX cellWidth
        (cellY + (index : ℚ) * textHeight + accumulateOffsetY) lineWidth line ::
      addLinesLoop pdf font textProp cellX cellWidth cellY (index + 1)
        (accumulateOffsetY + textProp.VerticalPadding) rest

/-- `Add`: the `pdf.Text` calls it makes, in order; `none` when `splitText` does not
return. The font colour is set and restored around them. -/
def Add (pdf : Fpdf) (font : Font) (text : Str) (cell : Cell) (textProp : TextProp) :
    Option (List TextCall) :=
  let fontHeight := font.GetFontSize / font.GetScaleFactor
  let cellY := cell.Y + fontHeight
  let unicodeText := textToUnicode pdf text textProp
  let stringWidth := pdf.GetStringWidth unicodeText
  match splitText pdf cell.Width unicodeText with
  | none => none
  | some words =>
    if stringWidth < cell.Width ∨ textProp.Extrapolate = true then
      some [addLine pdf textProp cell.X cell.Width cellY stringWidth unicodeText]
    else
      some (addLinesLoop pdf font textProp cell.X cell.Width cellY 0 0
        (getLines pdf words cell.Width))

/-- `GetLinesQuantity`; `none` when `splitText` does not return. -/
def GetLinesQuantity (pdf : Fpdf) (text : Str) (textProp : TextProp) (colWidth : ℚ) :
    Option Nat :=
  let unicodeText := textToUnicode pdf text textProp
  let stringWidth := pdf.GetStringWidth unicodeText
  match splitText pdf colWidth unicodeText with
  | none => none
  | some words =>
    if stringWidth < colWidth ∨ textProp.Extrapolate = true ∨ words.length = 1 then
      some 1
    else
      some (getLines pdf words colWidth).length

/-- A surface whose metric counts one unit per character (the space included), not in
its error state, with an identity translator and no margins. -/
def unitPdf : Fpdf :=
  { GetStringWidth := fun s => (s.length : ℚ)
    Err := false
    UnicodeTranslator := fun s => s
    GetMargins := (0, 0, 0, 0) }

/-- A font of size 10 with scale factor 1. -/
def unitFont : Font := ⟨10, 1⟩

/-- A left-aligned style of a family that needs no translation. -/
def plainProp : TextProp :=
  { Top := 0, Family := Family.Custom "cjk", Style := Style.Normal, Size := 10,
    Align := Align.Left, Extrapolate := false, VerticalPadding := 0, Color := ⟨0, 0, 0⟩ }

/-- The adjacency relation of phase-1 tokens: the next token starts with a character
that the previous token could not take. -/
def TokenBreak (pdf : Fpdf) (w : ℚ) (a b : Str) : Prop :=
  ∃ c r, b = c :: r ∧ pdf.GetStringWidth (a ++ [c]) > w

/-- The width metric is additive over concatenation (the sum of the widths of the
characters). -/
def Additive (pdf : Fpdf) : Prop :=
  ∀ a b : Str, pdf.GetStringWidth (a ++ b) = pdf.GetStringWidth a + pdf.GetStringWidth b

/-- The width metric is never negative. -/
def NonNeg (pdf : Fpdf) : Prop :=
  ∀ a : Str, 0 ≤ pdf.GetStringWidth a

/-- A line as phase 2 builds it: empty, or some text that fits the width followed by
the one separator appended after its last token. -/
def FitsBeforeSeparator (pdf : Fpdf) (w : ℚ) (l : Str) : Prop :=
  l = [] ∨ ∃ x, l = x ++ [' '] ∧ pdf.GetStringWidth x ≤ w

/-- A surface like `unitPdf` but in its error state. -/
def errPdf : Fpdf := { unitPdf with Err := true }

/-- The width of a character under a proportional metric: 'a' is 4 units wide, 'b' is 2
units wide, every other character (the space included) 1 unit. -/
def propCharWidth (c : Char) : ℚ :=
  if c = 'a' then 4 else if c = 'b' then 2 else 1

/-- A surface with the additive proportional metric `propCharWidth`, not in its error
state. -/
def propPdf : Fpdf :=
  { GetStringWidth := fun s => (s.map propCharWidth).sum
    Err := false
    UnicodeTranslator := fun s => s
    GetMargins := (0, 0, 0, 0) }

/-- The style `plainProp` with the extrapolate flag set. -/
def extraProp : TextProp := { plainProp with Extrapolate := true }

/-- The texts of the `pdf.Text` calls of a run of `Add`, in order. -/
def drawnLines (r : Option (List TextCall)) : Option (List Str) :=
  r.map (fun calls => calls.map TextCall.text)

/-! ### `tablelist.go` -/

/-- Modelled from the spec: `props.TableListContent` of `pkg/props`, which is not among
the source files; a text style and the per-column grid units. -/
structure TableListContent where
  Family : Family
  Style : Style
  Size : ℚ
  GridSizes : List Nat

/-- Modelled from the spec: `props.TableList` of `pkg/props`, which is not among the
source files; the TableStyle of the data model with the fields `Create` reads. -/
structure TableList where
  HeaderProp : TableListContent
  ContentProp : TableListContent
  Align : Align
  Aligns : List Maroto.Align
  AlternatedBackground : Option Color
  HeaderContentSpace : ℚ
  Line : Bool
  VerticalContentPadding : ℚ

/-- The zero value `props.TableList{}`. -/
def TableList.zero : TableList :=
  { HeaderProp := ⟨Family.Custom "", Style.Unset, 0, []⟩
    ContentProp := ⟨Family.Custom "", Style.Unset, 0, []⟩
    Align := Align.Unset
    Aligns := []
    AlternatedBackground := none
    HeaderContentSpace := 0
    Line := false
    VerticalContentPadding := 0 }

/-- The declarations of `pkg/consts` and `pkg/props` that `tablelist.go` uses and that are
not among the source files, taken as parameters. -/
structure Pkg where
  /-- `consts.MaxGridSum`. -/
  MaxGridSum : ℚ
  /-- `(*props.TableList).MakeValid(header, defaultFontFamily)`: the style it leaves. -/
  MakeValid : TableList → List Str → Str → TableList
  /-- `(*props.TableListContent).ToTextProp(align, top, extrapolate, verticalPadding)`. -/
  ToTextProp : TableListContent → Align → ℚ → Bool → ℚ → TextProp

/-- What the closure handed to `Row` does when the surface runs it: one entry per call it
makes. `ColWithMaxGridSum` is handed a closure that makes one `Text` call. -/
inductive ColCall
  | ColWithMaxGridSum (width : Nat) (text : Str) (prop : TextProp) (maxGridSum : ℚ)
  | ColSpace (width : Nat)

/-- A call that `tablelist.go` makes on the grid surface (`s.pdf`), the text component
(`s.text`) or the font (`s.font`). -/
inductive Call
  | Row (height : ℚ) (closure : List ColCall)
  | SetBackgroundColor (color : Color)
  | GetCurrentOffset
  | GetPageSize
  | GetPageMargins
  | Line (spaceHeight : ℚ)
  | SetBorder (isOn : Bool)
  | GetLinesQuantity (text : Str) (prop : TextProp) (colWidth : ℚ)
  | GetFont
  | GetScaleFactor

/-- The collaborators of `tableList` (`MarotoGridPart`, `Text`, `Font`) over a state `σ`
that holds everything they remember. The getters only read the state. `Row` is handed
the calls of its closure and decides what they do to the state. -/
structure World (σ : Type) where
  Row : ℚ → List ColCall → σ → σ
  SetBackgroundColor : Color → σ → σ
  GetCurrentOffset : σ → ℚ
  /-- Width and height. -/
  GetPageSize : σ → ℚ × ℚ
  /-- Left, top, right, bottom. -/
  GetPageMargins : σ → ℚ × ℚ × ℚ × ℚ
  Line : ℚ → σ → σ
  SetBorder : Bool → σ → σ
  GetLinesQuantity : Str → TextProp → ℚ → σ → Int × σ
  /-- Family, style, size. -/
  GetFont : σ → Family × Style × ℚ
  GetScaleFactor : σ → ℚ

/-- A run in progress: the state of the collaborators and the calls made so far, in
order. -/
structure Run (σ : Type) where
  st : σ
  log : List Call

/-- Make a call that changes the state, and record it. -/
def Run.call {σ : Type} (r : Run σ) (c : Call) (f : σ → σ) : Run σ :=
  ⟨f r.st, r.log ++ [c]⟩

/-- Record a call that only reads the state. -/
def Run.read {σ : Type} (r : Run σ) (c : Call) : Run σ :=
  ⟨r.st, r.log ++ [c]⟩

/-- `customizeMaxGridSum`. -/
def customizeMaxGridSum (pkg : Pkg) (contentProp : TableListContent) : ℚ :=
  if contentProp.GridSizes.length = 0 then
    pkg.MaxGridSum
  else
    let sizeSum : ℚ :=
      contentProp.GridSizes.foldl (fun (acc : ℚ) (size : Nat) => acc + (size : ℚ)) 0
    if sizeSum = pkg.MaxGridSum then pkg.MaxGridSum else sizeSum

/-- The first loop of `calcLinesHeight`, from column `i` on; `none` when
`contentProp.GridSizes[i]` is out of range (the source panics). -/
def calcLinesLoop {σ : Type} (W : World σ) (contentProp : TableListContent)
    (textProp : TextProp) (usefulWidth maxGridSum : ℚ) :
    Nat → List Str → ℚ → List ℚ → Run σ → Option (ℚ × List ℚ × Run σ)
  | _, [], maxLines, linesHeight, r => some (maxLines, linesHeight, r)
  | i, text :: rest, maxLines, linesHeight, r =>
    match contentProp.GridSizes[i]? with
    | none => none
    | some size =>
      let gridSize : ℚ := (size : ℚ)
      let percentSize := gridSize / maxGridSum
      let colWidth := usefulWidth * percentSize
      let q := W.GetLinesQuantity text textProp colWidth r.st
      let qtdLines : ℚ := (q.1 : ℚ)
      calcLinesLoop W contentProp textProp usefulWidth maxGridSum (i + 1) rest
        (if qtdLines > maxLines then qtdLines else maxLines) (linesHeight ++ [qtdLines])
        ⟨q.2, r.log ++ [Call.GetLinesQuantity text textProp colWidth]⟩

/-- `calcLinesHeight`: the row height, the height of each cell, and the run after its
calls. -/
def calcLinesHeight {σ : Type} (W : World σ) (pkg : Pkg) (textList : List Str)
    (contentProp : TableListContent) (align : Align) (r : Run σ) :
    Option (ℚ × List ℚ × Run σ) :=
  let r1 := r.read Call.GetPageMargins
  let left := (W.GetPageMargins r.st).1
  let right := (W.GetPageMargins r.st).2.2.1
  let r2 := r1.read Call.GetPageSize
  let width := (W.GetPageSize r.st).1
  let usefulWidth := width - left - right
  let textProp := pkg.ToTextProp contentProp align 0 false 0
  let maxGridSum := customizeMaxGridSum pkg contentProp
  match calcLinesLoop W contentProp textProp usefulWidth maxGridSum 0 textList 1 [] r2 with
  | none => none
  | some (maxLines, linesHeight, r3) =>
    let r4 := r3.read Call.GetFont
    let fontSize := (W.GetFont r3.st).2.2
    let r5 := r4.read Call.GetScaleFactor
    let fontHeight := fontSize / W.GetScaleFactor r3.st
    some (fontHeight * maxLines, linesHeight.map (fun f => fontHeight * f), r5)

/-- The calls of the closure that `Create` hands to `Row` for a header or content row,
from column `i` on: per cell one `ColWithMaxGridSum` whose closure draws the cell at
`top + extraTop`. `none` when an index is out of range (the source panics once the
surface runs the closure). -/
def rowClosure (pkg : Pkg) (contentProp : TableListContent) (aligns : List Align)
    (maxGridSum rowHeight extraTop : ℚ) (linesHeight : List ℚ) :
    Nat → List Str → Option (List ColCall)
  | _, [] => some []
  | i, c :: rest =>
    match linesHeight[i]?, contentProp.GridSizes[i]?, aligns[i]? with
    | some lh, some size, some al =>
      let top := (rowHeight - lh) / 2
      match rowClosure pkg contentProp aligns maxGridSum rowHeight extraTop linesHeight
          (i + 1) rest with
      | none => none
      | some cols =>
        some (ColCall.ColWithMaxGridSum size c
          (pkg.ToTextProp contentProp al (top + extraTop) false 0) maxGridSum :: cols)
    | _, _, _ => none

/-- The constant `lineHeight`. -/
def lineHeight : ℚ := 1

/-- `maxOffsetPage` as `Create` computes it: `pageHeight - bottom - top`. -/
def maxOffsetPage {σ : Type} (W : World σ) (s : σ) : ℚ :=
  (W.GetPageSize s).2 - (W.GetPageMargins s).2.2.2 - (W.GetPageMargins s).2.1

/-- The overflow test of `Create`: `offsetY > (maxOffsetPage - contentHeight - 1 - 7)`. -/
def overflows {σ : Type} (W : World σ) (contentHeight : ℚ) (s : σ) : Prop :=
  W.GetCurrentOffset s > maxOffsetPage W s - contentHeight - 1 - 7

instance {σ : Type} (W : World σ) (contentHeight : ℚ) (s : σ) :
    Decidable (overflows W contentHeight s) := by
  unfold overflows
  infer_instance

/-- `if tableProp.AlternatedBackground != nil && index%2 == 0` before the overflow test:
set the alternate background. -/
def setAlternatedBackground {σ : Type} (W : World σ) (tableProp : TableList) (index : Nat)
    (r : Run σ) : Run σ :=
  match tableProp.AlternatedBackground with
  | some c =>
    if index % 2 = 0 then r.call (Call.SetBackgroundColor c) (W.SetBackgroundColor c) else r
  | none => r

/-- `if tableProp.AlternatedBackground != nil && index%2 == 0` after the row: set the
background to white. -/
def resetBackground {σ : Type} (W : World σ) (tableProp : TableList) (index : Nat)
    (r : Run σ) : Run σ :=
  match tableProp.AlternatedBackground with
  | some _ =>
    if index % 2 = 0 then
      r.call (Call.SetBackgroundColor NewWhite) (W.SetBackgroundColor NewWhite)
    else r
  | none => r

/-- `if tableProp.Line { s.pdf.Line(lineHeight) }`. -/
def drawSeparatorLine {σ : Type} (W : World σ) (tableProp : TableList) (r : Run σ) : Run σ :=
  if tableProp.Line = true then r.call (Call.Line lineHeight) (W.Line lineHeight) else r

/-- The part of one iteration of the content loop of `Create` before the overflow test:
measure the row, set the alternate background on even rows, read the page. Returns the
content height, the cell heights and the run at the test. -/
def rowProbe {σ : Type} (W : World σ) (pkg : Pkg) (tableProp : TableList) (index : Nat)
    (content : List Str) (r : Run σ) : Option (ℚ × List ℚ × Run σ) :=
  match calcLinesHeight W pkg content tableProp.ContentProp tableProp.Align r with
  | none => none
  | some (contentHeight, linesHeight, r1) =>
    let r2 := setAlternatedBackground W tableProp index r1
    let r3 := ((r2.read Call.GetPageSize).read Call.GetPageMargins).read Call.GetCurrentOffset
    some (contentHeight, linesHeight, r3)

/-- The part of one iteration of the content loop of `Create` after a negative overflow
test: emit the row, revert the background, draw the separator line. -/
def rowEmit {σ : Type} (W : World σ) (pkg : Pkg) (tableProp : TableList) (maxGridSum : ℚ)
    (index : Nat) (content : List Str) (contentHeight : ℚ) (linesHeight : List ℚ)
    (r : Run σ) : Option (Run σ) :=
  let contentHeightPadded := contentHeight + tableProp.VerticalContentPadding
  match rowClosure pkg tableProp.ContentProp tableProp.Aligns maxGridSum contentHeight
      (tableProp.VerticalContentPadding / 2) linesHeight 0 content with
  | none => none
  | some cols =>
    let r1 := r.call (Call.Row (contentHeightPadded + 1) cols)
      (W.Row (contentHeightPadded + 1) cols)
    some (drawSeparatorLine W tableProp (resetBackground W tableProp index r1))

/-- The content loop of `Create` from row `index` on: `some k` when it left by `break`
at row `k`, `none` when it ran to the end; and the run after the loop. -/
def createLoop {σ : Type} (W : World σ) (pkg : Pkg) (tableProp : TableList) (maxGridSum : ℚ) :
    Nat → List (List Str) → Run σ → Option (Option Nat × Run σ)
  | _, [], r => some (none, r)
  | index, content :: rest, r =>
    match rowProbe W pkg tableProp index content r with
    | none => none
    | some (contentHeight, linesHeight, r1) =>
      if overflows W contentHeight r1.st then
        some (some index, r1.call (Call.SetBorder false) (W.SetBorder false))
      else
        match rowEmit W pkg tableProp maxGridSum index content contentHeight linesHeight r1 with
        | none => none
        | some r2 => createLoop W pkg tableProp maxGridSum (index + 1) rest r2

/-- The style `Create` works with: `prop[0]` if given, else the zero value; after
`MakeValid`. -/
def validProp (pkg : Pkg) (header : List Str) (defaultFontFamily : Str)
    (prop : List TableList) : TableList :=
  pkg.MakeValid (prop.headD TableList.zero) header defaultFontFamily

/-- The grid total `Create` computes before `MakeValid`. -/
def createMaxGridSum (pkg : Pkg) (header : List Str) (prop : List TableList) : ℚ :=
  let maxGridSum := customizeMaxGridSum pkg (prop.headD TableList.zero).ContentProp
  if maxGridSum < (header.length : ℚ) then (header.length : ℚ) else maxGridSum

/-- The part of `Create` that draws the header row and the spacer row. -/
def createHeader {σ : Type} (W : World σ) (pkg : Pkg) (header : List Str)
    (tableProp : TableList) (maxGridSum : ℚ) (r : Run σ) : Option (Run σ) :=
  match calcLinesHeight W pkg header tableProp.HeaderProp tableProp.Align r with
  | none => none
  | some (headerHeight, linesHeight, r1) =>
    match rowClosure pkg tableProp.HeaderProp tableProp.Aligns maxGridSum headerHeight 0
        linesHeight 0 header with
    | none => none
    | some cols =>
      let r2 := r1.call (Call.Row (headerHeight + 1) cols) (W.Row (headerHeight + 1) cols)
      some (r2.call (Call.Row tableProp.HeaderContentSpace [ColCall.ColSpace 0])
        (W.Row tableProp.HeaderContentSpace [ColCall.ColSpace 0]))

/-- `Create`: the returned `line` and the run after its calls; `none` when the source
panics on an index out of range. -/
def Create {σ : Type} (W : World σ) (pkg : Pkg) (header : List Str)
    (contents : List (List Str)) (defaultFontFamily : Str) (prop : List TableList)
    (r : Run σ) : Option (Nat × Run σ) :=
  if header.length = 0 then
    some (0, r)
  else if contents.length = 0 then
    some (0, r)
  else
    let maxGridSum := createMaxGridSum pkg header prop
    let tableProp := validProp pkg header defaultFontFamily prop
    match createHeader W pkg header tableProp maxGridSum r with
    | none => none
    | some r1 =>
      match createLoop W pkg tableProp maxGridSum 0 contents r1 with
      | none => none
      | some (brk, r2) =>
        some (brk.getD contents.length, r2.call (Call.SetBorder false) (W.SetBorder false))

/-- The run at the start of iteration `j` of the content loop of `Create` when every
earlier row was emitted, `r0` being the run after the header and the spacer. -/
def rowStart {σ : Type} (W : World σ) (pkg : Pkg) (tableProp : TableList) (maxGridSum : ℚ)
    (contents : List (List Str)) (r0 : Run σ) : Nat → Option (Run σ)
  | 0 => some r0
  | j + 1 =>
    match rowStart W pkg tableProp maxGridSum contents r0 j, contents[j]? with
    | some r, some content =>
      match rowProbe W pkg tableProp j content r with
      | some (contentHeight, linesHeight, r1) =>
        rowEmit W pkg tableProp maxGridSum j content contentHeight linesHeight r1
      | none => none
    | _, _ => none

/-- Content row `j` is reached with every earlier row emitted, and `P contentHeight s`
holds of the content height measured for it and of the state `s` the collaborators are in
when the overflow test is made on it (the state in which the row is emitted, if it is). -/
def RowReached {σ : Type} (W : World σ) (pkg : Pkg) (tableProp : TableList) (maxGridSum : ℚ)
    (contents : List (List Str)) (r0 : Run σ) (j : Nat) (P : ℚ → σ → Prop) : Prop :=
  ∃ r content contentHeight linesHeight r1,
    rowStart W pkg tableProp maxGridSum contents r0 j = some r ∧
    contents[j]? = some content ∧
    rowProbe W pkg tableProp j content r = some (contentHeight, linesHeight, r1) ∧
    P contentHeight r1.st

/-- The text a column call draws. -/
def ColCall.texts : ColCall → List Str
  | ColCall.ColWithMaxGridSum _ text _ _ => [text]
  | ColCall.ColSpace _ => []

/-- The cells of a `Row` call: the texts its closure draws, in order. -/
def Call.rowCells : Call → Option (List Str)
  | Call.Row _ closure => some (closure.map ColCall.texts).flatten
  | _ => none

/-- The `Row` calls of a log, in order, each as the cells it draws. -/
def rowTexts (log : List Call) : List (List Str) :=
  log.filterMap Call.rowCells

/-- The shape contract of the data model, as far as `Create` indexes: after `MakeValid`
no row has more cells than there are column units and alignments. -/
def WellShaped (pkg : Pkg) (header : List Str) (contents : List (List Str))
    (defaultFontFamily : Str) (prop : List TableList) : Prop :=
  header.length ≤ (validProp pkg header defaultFontFamily prop).HeaderProp.GridSizes.length ∧
  header.length ≤ (validProp pkg header defaultFontFamily prop).Aligns.length ∧
  ∀ row ∈ contents,
    row.length ≤ (validProp pkg header defaultFontFamily prop).ContentProp.GridSizes.length ∧
    row.length ≤ (validProp pkg header defaultFontFamily prop).Aligns.length

/-- A recording test double: the state is the current vertical offset; a row or a line
advances it by its height; the page is 210 wide and `pageHeight` high with margins of 10;
every text measures one line; the font has size 4 at scale factor 1. -/
def pageWorld (pageHeight : ℚ) : World ℚ :=
  { Row := fun h _ s => s + h
    SetBackgroundColor := fun _ s => s
    GetCurrentOffset := fun s => s
    GetPageSize := fun _ => (210, pageHeight)
    GetPageMargins := fun _ => (10, 10, 10, 10)
    Line := fun h s => s + h
    SetBorder := fun _ s => s
    GetLinesQuantity := fun _ _ _ s => (1, s)
    GetFont := fun _ => (Family.Arial, Style.Normal, 4)
    GetScaleFactor := fun _ => 1 }

/-- A stand-in for the missing declarations: grid total 12, a `MakeValid` that leaves the
style as given, a `ToTextProp` that copies the fields. -/
def simplePkg : Pkg :=
  { MaxGridSum := 12
    MakeValid := fun tableProp _ _ => tableProp
    ToTextProp := fun c al top ex vp => ⟨top, c.Family, c.Style, c.Size, al, ex, vp, ⟨0, 0, 0⟩⟩ }

/-- A one-column style with vertical content padding `pad` and a header-to-content space
of 4. -/
def oneColumnStyle (pad : ℚ) : TableList :=
  { HeaderProp := ⟨Family.Arial, Style.Bold, 4, [12]⟩
    ContentProp := ⟨Family.Arial, Style.Normal, 4, [12]⟩
    Align := Align.Left
    Aligns := [Align.Left]
    AlternatedBackground := none
    HeaderContentSpace := 4
    Line := false
    VerticalContentPadding := pad }

/-! ### Observations on runs of `Create` -/

/-- The line counts `GetLinesQuantity` answers for the cells of a row from column `i` on,
in cell order, each call made in the state the previous call left. -/
def lineCounts {σ : Type} (W : World σ) (contentProp : TableListContent)
    (textProp : TextProp) (usefulWidth maxGridSum : ℚ) : Nat → List Str → σ → List Int
  | _, [], _ => []
  | i, text :: rest, s =>
    (W.GetLinesQuantity text textProp
        (usefulWidth * (((contentProp.GridSizes.getD i 0 : Nat) : ℚ) / maxGridSum)) s).1 ::
      lineCounts W contentProp textProp usefulWidth maxGridSum (i + 1) rest
        (W.GetLinesQuantity text textProp
          (usefulWidth * (((contentProp.GridSizes.getD i 0 : Nat) : ℚ) / maxGridSum)) s).2

/-- The grid total a column call is given, if it takes one. -/
def ColCall.gridTotal : ColCall → Option ℚ
  | ColCall.ColWithMaxGridSum _ _ _ maxGridSum => some maxGridSum
  | ColCall.ColSpace _ => none

/-- The grid totals a call passes to `ColWithMaxGridSum`: those of the closure of a `Row`
call, in order. -/
def Call.gridTotals : Call → List ℚ
  | Call.Row _ closure => closure.filterMap ColCall.gridTotal
  | _ => []

/-- The grid totals passed to `ColWithMaxGridSum` during a run, in order. -/
def gridTotals (log : List Call) : List ℚ :=
  (log.map Call.gridTotals).flatten

/-- The colour of a `SetBackgroundColor` call. -/
def Call.background : Call → Option Color
  | Call.SetBackgroundColor color => some color
  | _ => none

/-- The colours of the `SetBackgroundColor` calls of a log, in order. -/
def backgroundCalls (log : List Call) : List Color :=
  log.filterMap Call.background

/-- The column width of a `GetLinesQuantity` call. -/
def Call.measuredWidth : Call → Option ℚ
  | Call.GetLinesQuantity _ _ colWidth => some colWidth
  | _ => none

/-- The column widths the cells were measured at during a run, in order. -/
def measuredWidths (log : List Call) : List ℚ :=
  log.filterMap Call.measuredWidth

/-- A two-column style with equal units, no padding and a header-to-content space of 4. -/
def twoColumnStyle : TableList :=
  { HeaderProp := ⟨Family.Arial, Style.Bold, 4, [6, 6]⟩
    ContentProp := ⟨Family.Arial, Style.Normal, 4, [6, 6]⟩
    Align := Align.Left
    Aligns := [Align.Left, Align.Left]
    AlternatedBackground := none
    HeaderContentSpace := 4
    Line := false
    VerticalContentPadding := 0 }

/-- The alternate background of `stripedStyle`. -/
def grey : Color := ⟨200, 200, 200⟩

/-- The style `oneColumnStyle 0` with the alternate background `grey`. -/
def stripedStyle : TableList :=
  { oneColumnStyle 0 with AlternatedBackground := some grey }

/-- The test double `pageWorld` with a state that also remembers the background colour
last set. -/
def bgWorld (pageHeight : ℚ) : World (ℚ × Color) :=
  { Row := fun h _ s => (s.1 + h, s.2)
    SetBackgroundColor := fun c s => (s.1, c)
    GetCurrentOffset := fun s => s.1
    GetPageSize := fun _ => (210, pageHeight)
    GetPageMargins := fun _ => (10, 10, 10, 10)
    Line := fun h s => (s.1 + h, s.2)
    SetBorder := fun _ s => s
    GetLinesQuantity := fun _ _ _ s => (1, s)
    GetFont := fun _ => (Family.Arial, Style.Normal, 4)
    GetScaleFactor := fun _ => 1 }

/-- The style of the grid example: five header columns of one unit each, two content
columns of one unit each. -/
def fiveHeaderStyle : TableList :=
  { HeaderProp := ⟨Family.Arial, Style.Bold, 4, [1, 1, 1, 1, 1]⟩
    ContentProp := ⟨Family.Arial, Style.Normal, 4, [1, 1]⟩
    Align := Align.Left
    Aligns := [Align.Left, Align.Left, Align.Left, Align.Left, Align.Left]
    AlternatedBackground := none
    HeaderContentSpace := 4
    Line := false
    VerticalContentPadding := 0 }

/-- The height of a `Row` call. -/
def Call.rowHeight : Call → Option ℚ
  | Call.Row height _ => some height
  | _ => none

/-- The heights of the `Row` calls of a log, in order. -/
def rowHeights (log : List Call) : List ℚ :=
  log.filterMap Call.rowHeight

/-- A surface, not in its error state, that measures a whole text narrower than its first
character alone: one character measures 5, every other string 1. It stands for a surface
on which the string `stringWidth` measures and the strings the loop of `getLineMaxStr`
measures disagree. -/
def shrinkingPdf : Fpdf :=
  { GetStringWidth := fun s => if s.length = 1 then 5 else 1
    Err := false
    UnicodeTranslator := fun s => s
    GetMargins := (0, 0, 0, 0) }

/-! ## Phase 1: `getLineMaxStr` and `splitText` -/

theorem getLineMaxStrLoop_append (pdf : Fpdf) (w : ℚ) (t acc : Str) :
    (getLineMaxStrLoop pdf w acc t).1 ++ (getLineMaxStrLoop pdf w acc t).2 = acc ++ t := by
  induction t generalizing acc with
  | nil => simp [getLineMaxStrLoop]
  | cons v rest ih =>
    unfold getLineMaxStrLoop
    split
    · rfl
    · rw [ih]; simp

theorem getLineMaxStr_append (pdf : Fpdf) (w : ℚ) (t : Str) :
    (getLineMaxStr pdf w t).1 ++ (getLineMaxStr pdf w t).2 = t := by
  simpa [getLineMaxStr] using getLineMaxStrLoop_append pdf w t []

theorem getLineMaxStr_nil (pdf : Fpdf) (w : ℚ) : getLineMaxStr pdf w [] = ([], []) := rfl

theorem getLineMaxStr_cons_wide (pdf : Fpdf) (w : ℚ) (c : Char) (rest : Str)
    (h : pdf.GetStringWidth [c] > w) : getLineMaxStr pdf w (c :: rest) = ([], c :: rest) := by
  simp [getLineMaxStr, getLineMaxStrLoop, h]

theorem getLineMaxStr_cons_fits (pdf : Fpdf) (w : ℚ) (c : Char) (rest : Str)
    (h : pdf.GetStringWidth [c] ≤ w) :
    getLineMaxStr pdf w (c :: rest) = getLineMaxStrLoop pdf w [c] rest := by
  simp [getLineMaxStr, getLineMaxStrLoop, not_lt.mpr h]

/-- What the loop of `getLineMaxStr` returns once the accumulated line is non-empty and
fits: a non-empty line that fits, starts with the accumulated line, and cannot take the
next character. -/
theorem getLineMaxStrLoop_spec (pdf : Fpdf) (w : ℚ) (t acc : Str)
    (hacc : acc ≠ []) (hfit : pdf.GetStringWidth acc ≤ w) :
    (getLineMaxStrLoop pdf w acc t).1 ≠ [] ∧
    pdf.GetStringWidth (getLineMaxStrLoop pdf w acc t).1 ≤ w ∧
    (∃ m, (getLineMaxStrLoop pdf w acc t).1 = acc ++ m) ∧
    (∀ v r, (getLineMaxStrLoop pdf w acc t).2 = v :: r →
      pdf.GetStringWidth ((getLineMaxStrLoop pdf w acc t).1 ++ [v]) > w) := by
  induction t generalizing acc with
  | nil =>
    refine ⟨by simpa [getLineMaxStrLoop] using hacc, by simpa [getLineMaxStrLoop] using hfit,
      ⟨[], by simp [getLineMaxStrLoop]⟩, ?_⟩
    intro v r h
    simp [getLineMaxStrLoop] at h
  | cons x rest ih =>
    by_cases hx : pdf.GetStringWidth (acc ++ [x]) > w
    · have e : getLineMaxStrLoop pdf w acc (x :: rest) = (acc, x :: rest) := by
        simp [getLineMaxStrLoop, hx]
      rw [e]
      refine ⟨hacc, hfit, ⟨[], by simp⟩, ?_⟩
      intro v r h
      simp only [List.cons.injEq] at h
      rw [← h.1]
      exact hx
    · have e : getLineMaxStrLoop pdf w acc (x :: rest) =
          getLineMaxStrLoop pdf w (acc ++ [x]) rest := by
        simp [getLineMaxStrLoop, hx]
      rw [e]
      obtain ⟨h1, h2, ⟨m, h3⟩, h4⟩ := ih (acc ++ [x]) (by simp) (not_lt.mp hx)
      exact ⟨h1, h2, ⟨x :: m, by rw [h3]; simp⟩, h4⟩

/-- The accumulator of the loop of `splitText` is only ever appended to. -/
theorem splitTextLoop_acc (pdf : Fpdf) (w : ℚ) (fuel : Nat) (t : Str) (sp : List Str) :
    splitTextLoop pdf w fuel t sp =
      (splitTextLoop pdf w fuel t []).map (fun toks => sp ++ toks) := by
  induction fuel generalizing t sp with
  | zero => simp [splitTextLoop]
  | succ n ih =>
    simp only [splitTextLoop]
    split
    · simp
    · rw [ih _ (sp ++ _), ih _ ([] ++ _)]
      simp [Option.map_map, Function.comp_def]

/-- One unfolding of the loop of `splitText`, without accumulator. -/
theorem splitTextLoop_succ (pdf : Fpdf) (w : ℚ) (fuel : Nat) (t : Str) :
    splitTextLoop pdf w (fuel + 1) t [] =
      if (getLineMaxStr pdf w t).2 = [] then some [(getLineMaxStr pdf w t).1]
      else (splitTextLoop pdf w fuel (getLineMaxStr pdf w t).2 []).map
        (fun toks => (getLineMaxStr pdf w t).1 :: toks) := by
  simp only [splitTextLoop]
  split
  · simp
  · rw [splitTextLoop_acc]
    simp

/-- A first character wider than the width is never consumed: the loop of `splitText`
uses up every budget. -/
theorem splitTextLoop_stuck (pdf : Fpdf) (w : ℚ) (c : Char) (rest : Str)
    (h : pdf.GetStringWidth [c] > w) (fuel : Nat) (sp : List Str) :
    splitTextLoop pdf w fuel (c :: rest) sp = none := by
  induction fuel generalizing sp with
  | zero => rfl
  | succ n ih =>
    simp only [splitTextLoop, getLineMaxStr_cons_wide pdf w c rest h]
    simpa using ih _

/-- More budget does not change a result. -/
theorem splitTextLoop_mono (pdf : Fpdf) (w : ℚ) (n m : Nat) (t : Str) (sp toks : List Str)
    (hnm : n ≤ m) (h : splitTextLoop pdf w n t sp = some toks) :
    splitTextLoop pdf w m t sp = some toks := by
  induction n generalizing m t sp with
  | zero => simp [splitTextLoop] at h
  | succ n ih =>
    obtain ⟨m, rfl⟩ : ∃ k, m = k + 1 := ⟨m - 1, by omega⟩
    simp only [splitTextLoop] at h ⊢
    split
    · next hr => simpa [hr] using h
    · next hr =>
      rw [if_neg hr] at h
      exact ih m _ _ (by omega) h

/-- A run of the loop that ends has consumed at least one character per iteration, so
it ends within `length + 1` iterations. -/
theorem splitTextLoop_canonical (pdf : Fpdf) (w : ℚ) (n : Nat) (t : Str) (sp toks : List Str)
    (h : splitTextLoop pdf w n t sp = some toks) :
    splitTextLoop pdf w (t.length + 1) t sp = some toks := by
  induction n generalizing t sp with
  | zero => simp [splitTextLoop] at h
  | succ n ih =>
    simp only [splitTextLoop] at h ⊢
    split
    · next hr => simpa [hr] using h
    · next hr =>
      rw [if_neg hr] at h
      have hrec := ih _ _ h
      have happ := getLineMaxStr_append pdf w t
      have hlen : (getLineMaxStr pdf w t).2.length < t.length := by
        cases t with
        | nil => simp [getLineMaxStr_nil] at hr
        | cons c rest =>
          by_cases hc : pdf.GetStringWidth [c] > w
          · rw [getLineMaxStr_cons_wide pdf w c rest hc] at h
            rw [splitTextLoop_stuck pdf w c rest hc] at h
            simp at h
          · have hne := (getLineMaxStrLoop_spec pdf w rest [c] (by simp) (not_lt.mp hc)).1
            rw [← getLineMaxStr_cons_fits pdf w c rest (not_lt.mp hc)] at hne
            have hl := congrArg List.length happ
            rw [List.length_append] at hl
            have : 0 < (getLineMaxStr pdf w (c :: rest)).1.length :=
              List.length_pos.mpr hne
            omega
      exact splitTextLoop_mono pdf w _ _ _ _ _ (by omega) hrec

/-- The budget of `splitText` is enough: `splitText` is `none` exactly when no budget
makes the loop end. -/
theorem splitText_none_iff (pdf : Fpdf) (w : ℚ) (t : Str) :
    splitText pdf w t = none ↔ ∀ fuel, splitTextFuel fuel pdf w t = none := by
  constructor
  · intro h fuel
    unfold splitText at h
    unfold splitTextFuel at h ⊢
    by_cases he : pdf.Err
    · simp [he] at h
    · simp only [he] at h ⊢
      cases hf : splitTextLoop pdf w fuel t [] with
      | none => rfl
      | some toks =>
        rw [splitTextLoop_canonical pdf w fuel t [] toks hf] at h
        simp at h
  · intro h
    exact h _

/-- Whatever the loop of `splitText` returns concatenates to the text it was given. -/
theorem splitTextLoop_flatten (pdf : Fpdf) (w : ℚ) (fuel : Nat) (t : Str) (toks : List Str)
    (h : splitTextLoop pdf w fuel t [] = some toks) : toks.flatten = t := by
  induction fuel generalizing t toks with
  | zero => simp [splitTextLoop] at h
  | succ n ih =>
    rw [splitTextLoop_succ] at h
    have happ := getLineMaxStr_append pdf w t
    split at h
    · next hr =>
      simp only [Option.some.injEq] at h
      rw [← h]
      simpa [hr] using happ
    · cases hrec : splitTextLoop pdf w n (getLineMaxStr pdf w t).2 [] with
      | none => simp [hrec] at h
      | some toks1 =>
        simp only [hrec, Option.map_some', Option.some.injEq] at h
        rw [← h, List.flatten_cons, ih _ _ hrec]
        exact happ

/-- When every character of a non-empty text fits the width by itself, the loop of
`splitText` ends within `length` iterations, and its tokens are non-empty, fit, are
maximal and concatenate to the text. -/
theorem splitTextLoop_tokens (pdf : Fpdf) (w : ℚ) (fuel : Nat) (t : Str) (ht : t ≠ [])
    (hfit : ∀ c ∈ t, pdf.GetStringWidth [c] ≤ w) (hfuel : t.length ≤ fuel) :
    ∃ toks, splitTextLoop pdf w fuel t [] = some toks ∧
      (∀ x ∈ toks, x ≠ [] ∧ pdf.GetStringWidth x ≤ w) ∧
      List.Chain' (TokenBreak pdf w) toks ∧
      toks.head? = some (getLineMaxStr pdf w t).1 := by
  induction fuel generalizing t with
  | zero =>
    cases t with
    | nil => exact absurd rfl ht
    | cons c rest => simp at hfuel
  | succ n ih =>
    cases t with
    | nil => exact absurd rfl ht
    | cons c rest =>
      have hc : pdf.GetStringWidth [c] ≤ w := hfit c (by simp)
      obtain ⟨h1, h2, -, h4⟩ := getLineMaxStrLoop_spec pdf w rest [c] (by simp) hc
      rw [← getLineMaxStr_cons_fits pdf w c rest hc] at h1 h2 h4
      have happ := getLineMaxStr_append pdf w (c :: rest)
      rw [splitTextLoop_succ]
      by_cases hr : (getLineMaxStr pdf w (c :: rest)).2 = []
      · rw [if_pos hr]
        refine ⟨_, rfl, ?_, by simp, by simp⟩
        intro x hx
        simp only [List.mem_singleton] at hx
        subst hx
        exact ⟨h1, h2⟩
      · rw [if_neg hr]
        obtain ⟨v, r, hvr⟩ := List.exists_cons_of_ne_nil hr
        have hsub : ∀ x ∈ (getLineMaxStr pdf w (c :: rest)).2, pdf.GetStringWidth [x] ≤ w := by
          intro x hx
          apply hfit
          rw [← happ]
          exact List.mem_append_right _ hx
        have hlen : (getLineMaxStr pdf w (c :: rest)).2.length ≤ n := by
          have hl := congrArg List.length happ
          rw [List.length_append] at hl
          have : 0 < (getLineMaxStr pdf w (c :: rest)).1.length := List.length_pos.mpr h1
          simp only [List.length_cons] at hl hfuel
          omega
        obtain ⟨toks, e, g1, g2, g3⟩ := ih _ hr hsub hlen
        refine ⟨_, by rw [e]; rfl, ?_, ?_, by simp⟩
        · intro x hx
          rcases List.mem_cons.mp hx with rfl | hx
          · exact ⟨h1, h2⟩
          · exact g1 x hx
        · rw [List.chain'_cons']
          refine ⟨?_, g2⟩
          intro y hy
          rw [g3] at hy
          simp only [Option.mem_def, Option.some.injEq] at hy
          have hv : pdf.GetStringWidth [v] ≤ w := by
            apply hsub; rw [hvr]; simp
          obtain ⟨-, -, ⟨m, hm⟩, -⟩ := getLineMaxStrLoop_spec pdf w r [v] (by simp) hv
          rw [hvr, getLineMaxStr_cons_fits pdf w v r hv, hm] at hy
          exact ⟨v, m, by rw [← hy]; rfl, h4 v r hvr⟩

/-- C1 (defect): on the text "a" at width 0, with a metric of one unit per character
and the surface not in its error state, no iteration budget lets `splitText` return: a
character wider than the width is never consumed, `getLineMaxStr` hands the whole text
back with an empty token, and the loop repeats on the same text for ever. -/
theorem splitText_wide_char_diverges :
    (∀ fuel, splitTextFuel fuel unitPdf 0 ['a'] = none) ∧
    getLineMaxStr unitPdf 0 ['a'] = ([], ['a']) := by
  have hw : unitPdf.GetStringWidth ['a'] > 0 := by simp [unitPdf]
  refine ⟨?_, getLineMaxStr_cons_wide unitPdf 0 'a' [] hw⟩
  intro fuel
  simp only [splitTextFuel, unitPdf, Bool.false_eq_true, if_false]
  exact splitTextLoop_stuck _ 0 'a' [] hw fuel []

/-- C7: whenever `splitText` returns (under any iteration budget, so on every text and
width on which the source terminates, in the error state or not), the tokens it returns
concatenate, in order, to exactly the input text. -/
theorem splitText_partition (pdf : Fpdf) (w : ℚ) (t : Str) (fuel : Nat) (toks : List Str)
    (h : splitTextFuel fuel pdf w t = some toks) : toks.flatten = t := by
  unfold splitTextFuel at h
  split at h
  · simp only [Option.some.injEq] at h
    rw [← h]
    simp
  · exact splitTextLoop_flatten pdf w fuel t toks h

theorem splitText_partition_witness :
    splitTextFuel 4 unitPdf 2 ['a', 'b', 'c'] = some [['a', 'b'], ['c']] ∧
    [['a', 'b'], ['c']].flatten = ['a', 'b', 'c'] :=
  ⟨by simp [splitTextFuel, splitTextLoop, getLineMaxStr, getLineMaxStrLoop, unitPdf]; norm_num,
   splitText_partition unitPdf 2 ['a', 'b', 'c'] 4 [['a', 'b'], ['c']]
    (by simp [splitTextFuel, splitTextLoop, getLineMaxStr, getLineMaxStrLoop, unitPdf]; norm_num)⟩

/-- C8: for a non-empty text each of whose characters fits the width by itself, on a
surface that is not in its error state, `splitText` returns; every token it returns has
rendered width at most the width, and every token but the last, extended by the first
character of the token that follows it, is wider than the width. -/
theorem splitText_tokens_fit_maximal (pdf : Fpdf) (w : ℚ) (t : Str) (ht : t ≠ [])
    (_ : 0 ≤ w) (herr : pdf.Err = false) (hfit : ∀ c ∈ t, pdf.GetStringWidth [c] ≤ w) :
    ∃ toks, splitText pdf w t = some toks ∧
      (∀ x ∈ toks, pdf.GetStringWidth x ≤ w) ∧
      (∀ i (h : i + 1 < toks.length), ∃ c r, toks[i + 1] = c :: r ∧
        pdf.GetStringWidth (toks[i] ++ [c]) > w) := by
  obtain ⟨toks, e, g1, g2, -⟩ :=
    splitTextLoop_tokens pdf w (t.length + 1) t ht hfit (by omega)
  refine ⟨toks, by simp [splitText, splitTextFuel, herr, e], fun x hx => (g1 x hx).2, ?_⟩
  intro i h
  exact (List.chain'_iff_get.mp g2) i (by omega)

theorem splitText_tokens_fit_maximal_witness :
    ∃ toks, splitText unitPdf 2 ['a', 'b', 'c'] = some toks ∧
      (∀ x ∈ toks, unitPdf.GetStringWidth x ≤ 2) ∧
      (∀ i (h : i + 1 < toks.length), ∃ c r, toks[i + 1] = c :: r ∧
        unitPdf.GetStringWidth (toks[i] ++ [c]) > 2) :=
  splitText_tokens_fit_maximal unitPdf 2 ['a', 'b', 'c'] (by simp) (by norm_num) rfl
    (by simp [unitPdf])

/-! ## Phase 2: `getLines` -/

theorem additive_nil (pdf : Fpdf) (ha : Additive pdf) : pdf.GetStringWidth [] = 0 := by
  have h := ha [] []
  simp only [List.append_nil] at h
  linarith

theorem getLinesStep_length_le (pdf : Fpdf) (w : ℚ) (st : LinesState) (word : Str) :
    (getLinesStep pdf w st word).lines.length ≤ st.lines.length + 1 := by
  unfold getLinesStep
  split <;> simp

theorem getLinesStep_length_ge (pdf : Fpdf) (w : ℚ) (st : LinesState) (word : Str) :
    st.lines.length ≤ (getLinesStep pdf w st word).lines.length := by
  unfold getLinesStep
  split <;> simp

theorem getLines_foldl_length_le (pdf : Fpdf) (w : ℚ) (words : List Str) (st : LinesState) :
    (words.foldl (getLinesStep pdf w) st).lines.length ≤ st.lines.length + words.length := by
  induction words generalizing st with
  | nil => simp
  | cons x rest ih =>
    simp only [List.foldl_cons, List.length_cons]
    have h1 := ih (getLinesStep pdf w st x)
    have h2 := getLinesStep_length_le pdf w st x
    omega

theorem getLines_foldl_length_ge (pdf : Fpdf) (w : ℚ) (words : List Str) (st : LinesState) :
    st.lines.length ≤ (words.foldl (getLinesStep pdf w) st).lines.length := by
  induction words generalizing st with
  | nil => simp
  | cons x rest ih =>
    simp only [List.foldl_cons]
    exact le_trans (getLinesStep_length_ge pdf w st x) (ih _)

/-- Phase 2 returns at most one line more than it was given tokens. -/
theorem getLines_length_le (pdf : Fpdf) (w : ℚ) (words : List Str) :
    (getLines pdf words w).length ≤ words.length + 1 := by
  have h := getLines_foldl_length_le pdf w words ⟨[[]], 0, 0⟩
  simp only [List.length_singleton] at h
  unfold getLines
  omega

/-- A token that follows a token it broke off from never joins the line of that token:
every token of a chain of phase-1 tokens opens a line of its own. -/
theorem getLines_foldl_chain (pdf : Fpdf) (w : ℚ) (ha : Additive pdf) (hn : NonNeg pdf)
    (toks : List Str) (prev : Str) (st : LinesState)
    (hc : List.Chain (TokenBreak pdf w) prev toks)
    (hs : pdf.GetStringWidth prev ≤ st.currentlySize) :
    (toks.foldl (getLinesStep pdf w) st).lines.length = st.lines.length + toks.length := by
  induction toks generalizing prev st with
  | nil => simp
  | cons b rest ih =>
    rw [List.chain_cons] at hc
    obtain ⟨⟨c, r, hb, hbreak⟩, hrest⟩ := hc
    have hwide : ¬ (pdf.GetStringWidth (b ++ [' ']) + st.currentlySize < w) := by
      have e1 : pdf.GetStringWidth (b ++ [' ']) =
          pdf.GetStringWidth [c] + pdf.GetStringWidth (r ++ [' ']) := by
        rw [hb, ← ha]; rfl
      have e2 := ha prev [c]
      have e3 := hn (r ++ [' '])
      linarith
    have hstep : getLinesStep pdf w st b =
        { lines := (st.lines ++ [[]]).set (st.actualLine + 1)
            ((st.lines ++ [[]]).getD (st.actualLine + 1) [] ++ b ++ [' '])
          currentlySize := pdf.GetStringWidth (b ++ [' '])
          actualLine := st.actualLine + 1 } := by
      unfold getLinesStep
      rw [if_neg hwide]
    simp only [List.foldl_cons, List.length_cons]
    rw [ih b (getLinesStep pdf w st b) hrest ?_]
    · rw [hstep]
      simp
      omega
    · rw [hstep]
      have e := ha b [' ']
      have e3 := hn [' ']
      simp only
      linarith

/-- On a chain of phase-1 tokens, phase 2 returns at least as many lines as tokens. -/
theorem getLines_length_ge_of_chain (pdf : Fpdf) (w : ℚ) (ha : Additive pdf) (hn : NonNeg pdf)
    (toks : List Str) (hc : List.Chain' (TokenBreak pdf w) toks) :
    toks.length ≤ (getLines pdf toks w).length := by
  cases toks with
  | nil => simp
  | cons a rest =>
    unfold getLines
    simp only [List.foldl_cons, List.length_cons]
    have hsize : pdf.GetStringWidth a ≤
        (getLinesStep pdf w ⟨[[]], 0, 0⟩ a).currentlySize := by
      have e := ha a [' ']
      have e3 := hn [' ']
      unfold getLinesStep
      split <;> simp only <;> linarith
    rw [getLines_foldl_chain pdf w ha hn rest a _ hc hsize]
    have := getLinesStep_length_ge pdf w ⟨[[]], 0, 0⟩ a
    simp only [List.length_singleton] at this
    omega

theorem set_last_append (pre : List Str) (cur x : Str) :
    (pre ++ [cur]).set pre.length ((pre ++ [cur]).getD pre.length [] ++ x) =
      pre ++ [cur ++ x] := by
  simp [List.getD_eq_getElem?_getD]

/-- One iteration of `getLines` on a state whose current line is the last one: the word
joins the last line or opens a new last line. -/
theorem getLinesStep_last (pdf : Fpdf) (w : ℚ) (pre : List Str) (cur : Str) (size : ℚ)
    (word : Str) :
    getLinesStep pdf w ⟨pre ++ [cur], size, pre.length⟩ word =
      if pdf.GetStringWidth (word ++ [' ']) + size < w then
        ⟨pre ++ [cur ++ (word ++ [' '])], size + pdf.GetStringWidth (word ++ [' ']), pre.length⟩
      else
        ⟨(pre ++ [cur]) ++ [word ++ [' ']], pdf.GetStringWidth (word ++ [' ']),
          (pre ++ [cur]).length⟩ := by
  unfold getLinesStep
  split
  · simp only [List.append_assoc]
    rw [set_last_append]
  · have h : pre.length + 1 = (pre ++ [cur]).length := by simp
    simp only [List.append_assoc ((pre ++ [cur]) ++ [[]] |>.getD (pre.length + 1) [])]
    rw [h, set_last_append (pre ++ [cur]) [] (word ++ [' '])]
    simp

/-- The lines of `getLines` over words that fit: every line is empty or is, before its
final separator, no wider than the width. -/
theorem getLines_foldl_fits (pdf : Fpdf) (w : ℚ) (ha : Additive pdf) (hn : NonNeg pdf)
    (words : List Str) (hwords : ∀ x ∈ words, pdf.GetStringWidth x ≤ w)
    (pre : List Str) (cur : Str) (size : ℚ)
    (hpre : ∀ l ∈ pre, FitsBeforeSeparator pdf w l) (hcur : FitsBeforeSeparator pdf w cur)
    (hsize : size = pdf.GetStringWidth cur) :
    ∀ l ∈ (words.foldl (getLinesStep pdf w) ⟨pre ++ [cur], size, pre.length⟩).lines,
      FitsBeforeSeparator pdf w l := by
  induction words generalizing pre cur size with
  | nil =>
    intro l hl
    simp only [List.foldl_nil, List.mem_append, List.mem_singleton] at hl
    rcases hl with hl | rfl
    · exact hpre l hl
    · exact hcur
  | cons x rest ih =>
    have hx : pdf.GetStringWidth x ≤ w := hwords x (by simp)
    have hrest : ∀ y ∈ rest, pdf.GetStringWidth y ≤ w :=
      fun y hy => hwords y (List.mem_cons_of_mem _ hy)
    simp only [List.foldl_cons]
    rw [getLinesStep_last]
    split
    · next hfit =>
      apply ih hrest pre _ _ hpre
      · right
        refine ⟨cur ++ x, by simp, ?_⟩
        have e1 := ha cur x
        have e2 := ha x [' ']
        have e3 := hn [' ']
        linarith
      · have e1 := ha cur (x ++ [' '])
        linarith
    · apply ih hrest (pre ++ [cur]) _ _ ?_ ?_ rfl
      · intro l hl
        simp only [List.mem_append, List.mem_singleton] at hl
        rcases hl with hl | rfl
        · exact hpre l hl
        · exact hcur
      · exact Or.inr ⟨x, rfl, hx⟩

theorem getLines_fits (pdf : Fpdf) (w : ℚ) (ha : Additive pdf) (hn : NonNeg pdf)
    (words : List Str) (hwords : ∀ x ∈ words, pdf.GetStringWidth x ≤ w) :
    ∀ l ∈ getLines pdf words w, FitsBeforeSeparator pdf w l := by
  have h := getLines_foldl_fits pdf w ha hn words hwords [] [] 0 (by simp) (Or.inl rfl)
    (additive_nil pdf ha).symm
  simpa [getLines] using h

theorem addLinesLoop_texts (pdf : Fpdf) (font : Font) (textProp : TextProp) (x cw y : ℚ)
    (lines : List Str) (index : Nat) (acc : ℚ) :
    (addLinesLoop pdf font textProp x cw y index acc lines).map TextCall.text = lines := by
  induction lines generalizing index acc with
  | nil => simp [addLinesLoop]
  | cons l rest ih =>
    simp only [addLinesLoop, List.map_cons, ih]
    congr 1
    unfold addLine
    split <;> rfl

theorem addLine_text (pdf : Fpdf) (textProp : TextProp) (x cw y tw : ℚ) (t : Str) :
    (addLine pdf textProp x cw y tw t).text = t := by
  unfold addLine
  split <;> rfl

/-! ## Facts about phase 1 that hold for every metric -/

theorem getLineMaxStrLoop_break (pdf : Fpdf) (w : ℚ) (t acc : Str) (v : Char) (r : Str)
    (h : (getLineMaxStrLoop pdf w acc t).2 = v :: r) :
    pdf.GetStringWidth ((getLineMaxStrLoop pdf w acc t).1 ++ [v]) > w := by
  induction t generalizing acc with
  | nil => simp [getLineMaxStrLoop] at h
  | cons x rest ih =>
    by_cases hx : pdf.GetStringWidth (acc ++ [x]) > w
    · have e : getLineMaxStrLoop pdf w acc (x :: rest) = (acc, x :: rest) := by
        simp [getLineMaxStrLoop, hx]
      rw [e] at h ⊢
      simp only [List.cons.injEq] at h
      rw [← h.1]
      exact hx
    · have e : getLineMaxStrLoop pdf w acc (x :: rest) =
          getLineMaxStrLoop pdf w (acc ++ [x]) rest := by
        simp [getLineMaxStrLoop, hx]
      rw [e] at h ⊢
      exact ih _ h

theorem getLineMaxStrLoop_fits (pdf : Fpdf) (w : ℚ) (t acc : Str) :
    (getLineMaxStrLoop pdf w acc t).1 = acc ∨
      pdf.GetStringWidth (getLineMaxStrLoop pdf w acc t).1 ≤ w := by
  induction t generalizing acc with
  | nil => left; rfl
  | cons x rest ih =>
    by_cases hx : pdf.GetStringWidth (acc ++ [x]) > w
    · left
      simp [getLineMaxStrLoop, hx]
    · have e : getLineMaxStrLoop pdf w acc (x :: rest) =
          getLineMaxStrLoop pdf w (acc ++ [x]) rest := by
        simp [getLineMaxStrLoop, hx]
      rw [e]
      rcases ih (acc ++ [x]) with h | h
      · right
        rw [h]
        exact not_lt.mp hx
      · exact Or.inr h

theorem getLineMaxStr_break (pdf : Fpdf) (w : ℚ) (t : Str) (v : Char) (r : Str)
    (h : (getLineMaxStr pdf w t).2 = v :: r) :
    pdf.GetStringWidth ((getLineMaxStr pdf w t).1 ++ [v]) > w :=
  getLineMaxStrLoop_break pdf w t [] v r h

theorem getLineMaxStr_fits (pdf : Fpdf) (w : ℚ) (t : Str)
    (h : (getLineMaxStr pdf w t).1 ≠ []) :
    pdf.GetStringWidth (getLineMaxStr pdf w t).1 ≤ w := by
  rcases getLineMaxStrLoop_fits pdf w t [] with h1 | h1
  · exact absurd h1 h
  · exact h1

/-- Whenever the loop of `splitText` returns, adjacent tokens are separated by a real
break, and the first token is the one `getLineMaxStr` cuts from the text. -/
theorem splitTextLoop_chain (pdf : Fpdf) (w : ℚ) (fuel : Nat) (t : Str) (toks : List Str)
    (h : splitTextLoop pdf w fuel t [] = some toks) :
    List.Chain' (TokenBreak pdf w) toks ∧ toks.head? = some (getLineMaxStr pdf w t).1 := by
  induction fuel generalizing t toks with
  | zero => simp [splitTextLoop] at h
  | succ n ih =>
    rw [splitTextLoop_succ] at h
    split at h
    · simp only [Option.some.injEq] at h
      rw [← h]
      simp
    · next hr =>
      cases hrec : splitTextLoop pdf w n (getLineMaxStr pdf w t).2 [] with
      | none => simp [hrec] at h
      | some toks1 =>
        simp only [hrec, Option.map_some', Option.some.injEq] at h
        obtain ⟨g2, g3⟩ := ih _ _ hrec
        rw [← h]
        refine ⟨?_, by simp⟩
        rw [List.chain'_cons']
        refine ⟨?_, g2⟩
        intro y hy
        rw [g3] at hy
        simp only [Option.mem_def, Option.some.injEq] at hy
        obtain ⟨v, r, hvr⟩ := List.exists_cons_of_ne_nil hr
        have hbreak := getLineMaxStr_break pdf w t v r hvr
        by_cases hv : pdf.GetStringWidth [v] > w
        · rw [hvr, splitTextLoop_stuck pdf w v r hv] at hrec
          simp at hrec
        · obtain ⟨-, -, ⟨m, hm⟩, -⟩ :=
            getLineMaxStrLoop_spec pdf w r [v] (by simp) (not_lt.mp hv)
          rw [hvr, getLineMaxStr_cons_fits pdf w v r (not_lt.mp hv), hm] at hy
          exact ⟨v, m, by rw [← hy]; rfl, hbreak⟩

theorem additive_infix_le (pdf : Fpdf) (ha : Additive pdf) (hn : NonNeg pdf) (p m q : Str) :
    pdf.GetStringWidth m ≤ pdf.GetStringWidth (p ++ m ++ q) := by
  rw [ha, ha]
  have h1 := hn p
  have h2 := hn q
  linarith

/-- Greedy segmentation of a suffix at a larger width never needs more tokens. -/
theorem splitTextLoop_length_mono (pdf : Fpdf) (ha : Additive pdf) (hn : NonNeg pdf)
    (w1 w2 : ℚ) (hw : w1 ≤ w2) (n1 : Nat) :
    ∀ (n2 : Nat) (s1 s2 : Str) (toks1 toks2 : List Str), s2 <:+ s1 →
      splitTextLoop pdf w1 n1 s1 [] = some toks1 →
      splitTextLoop pdf w2 n2 s2 [] = some toks2 → toks2.length ≤ toks1.length := by
  induction n1 with
  | zero =>
    intro n2 s1 s2 toks1 toks2 _ h1
    simp [splitTextLoop] at h1
  | succ n1 ih =>
    intro n2 s1 s2 toks1 toks2 hsuf h1 h2
    cases n2 with
    | zero => simp [splitTextLoop] at h2
    | succ n2 =>
      rw [splitTextLoop_succ] at h1 h2
      have hpos1 : 1 ≤ toks1.length := by
        split at h1
        · simp only [Option.some.injEq] at h1
          rw [← h1]; simp
        · cases hrec : splitTextLoop pdf w1 n1 (getLineMaxStr pdf w1 s1).2 [] with
          | none => simp [hrec] at h1
          | some t =>
            simp only [hrec, Option.map_some', Option.some.injEq] at h1
            rw [← h1]; simp
      by_cases hr2 : (getLineMaxStr pdf w2 s2).2 = []
      · rw [if_pos hr2] at h2
        simp only [Option.some.injEq] at h2
        rw [← h2]
        simpa using hpos1
      · rw [if_neg hr2] at h2
        obtain ⟨v, r, hvr⟩ := List.exists_cons_of_ne_nil hr2
        have hbreak := getLineMaxStr_break pdf w2 s2 v r hvr
        have happ1 := getLineMaxStr_append pdf w1 s1
        have happ2 := getLineMaxStr_append pdf w2 s2
        -- the rest at the larger width is a suffix of the rest at the smaller width
        have hsuf2 : (getLineMaxStr pdf w2 s2).2 <:+ (getLineMaxStr pdf w1 s1).2 := by
          have hA : (getLineMaxStr pdf w2 s2).2 <:+ s1 :=
            List.IsSuffix.trans ⟨_, happ2⟩ hsuf
          have hB : (getLineMaxStr pdf w1 s1).2 <:+ s1 := ⟨_, happ1⟩
          rcases List.suffix_or_suffix_of_suffix hA hB with h | h
          · exact h
          · obtain ⟨y, hy⟩ := h
            cases y with
            | nil =>
              simp only [List.nil_append] at hy
              rw [hy]
            | cons y0 y1 =>
              exfalso
              obtain ⟨p, hp⟩ := hsuf
              have hy0 : y0 = v := by
                rw [hvr] at hy
                simp only [List.cons_append, List.cons.injEq] at hy
                exact hy.1
              subst hy0
              have e : (getLineMaxStr pdf w1 s1).1 =
                  p ++ ((getLineMaxStr pdf w2 s2).1 ++ [y0]) ++ y1 := by
                have e1 : (getLineMaxStr pdf w1 s1).1 ++ (getLineMaxStr pdf w1 s1).2 =
                    (p ++ ((getLineMaxStr pdf w2 s2).1 ++ [y0]) ++ y1) ++
                      (getLineMaxStr pdf w1 s1).2 := by
                  calc (getLineMaxStr pdf w1 s1).1 ++ (getLineMaxStr pdf w1 s1).2
                      = s1 := happ1
                    _ = p ++ s2 := hp.symm
                    _ = p ++ ((getLineMaxStr pdf w2 s2).1 ++ (getLineMaxStr pdf w2 s2).2) := by
                        rw [happ2]
                    _ = p ++ ((getLineMaxStr pdf w2 s2).1 ++
                          (y0 :: y1 ++ (getLineMaxStr pdf w1 s1).2)) := by rw [hy]
                    _ = _ := by simp
                exact List.append_cancel_right e1
              have hne : (getLineMaxStr pdf w1 s1).1 ≠ [] := by
                rw [e]; simp
              have hfit := getLineMaxStr_fits pdf w1 s1 hne
              have hle := additive_infix_le pdf ha hn p
                ((getLineMaxStr pdf w2 s2).1 ++ [y0]) y1
              rw [← e] at hle
              linarith
        have hr1 : (getLineMaxStr pdf w1 s1).2 ≠ [] := by
          intro h0
          rw [h0] at hsuf2
          exact hr2 (List.suffix_nil.mp hsuf2)
        rw [if_neg hr1] at h1
        cases hrec1 : splitTextLoop pdf w1 n1 (getLineMaxStr pdf w1 s1).2 [] with
        | none => simp [hrec1] at h1
        | some t1 =>
          cases hrec2 : splitTextLoop pdf w2 n2 (getLineMaxStr pdf w2 s2).2 [] with
          | none => simp [hrec2] at h2
          | some t2 =>
            simp only [hrec1, Option.map_some', Option.some.injEq] at h1
            simp only [hrec2, Option.map_some', Option.some.injEq] at h2
            rw [← h1, ← h2]
            have := ih n2 _ _ t1 t2 hsuf2 hrec1 hrec2
            simpa using this

/-! ## `GetLinesQuantity` and `Add` -/

theorem GetLinesQuantity_of_split (pdf : Fpdf) (text : Str) (textProp : TextProp) (w : ℚ)
    (toks : List Str) (h : splitText pdf w (textToUnicode pdf text textProp) = some toks) :
    GetLinesQuantity pdf text textProp w =
      some (if pdf.GetStringWidth (textToUnicode pdf text textProp) < w ∨
          textProp.Extrapolate = true ∨ toks.length = 1 then 1
        else (getLines pdf toks w).length) := by
  simp only [GetLinesQuantity, h]
  split <;> rfl

theorem Add_of_split (pdf : Fpdf) (font : Font) (text : Str) (cell : Cell)
    (textProp : TextProp) (toks : List Str)
    (h : splitText pdf cell.Width (textToUnicode pdf text textProp) = some toks) :
    drawnLines (Add pdf font text cell textProp) =
      some (if pdf.GetStringWidth (textToUnicode pdf text textProp) < cell.Width ∨
          textProp.Extrapolate = true then [textToUnicode pdf text textProp]
        else getLines pdf toks cell.Width) := by
  simp only [Add, h, drawnLines]
  split
  · simp [addLine_text]
  · simp only [Option.map_some', addLinesLoop_texts]

theorem additive_unitPdf : Additive unitPdf := by
  intro a b
  simp [unitPdf]

theorem nonNeg_unitPdf : NonNeg unitPdf := by
  intro a
  simp [unitPdf]

theorem additive_propPdf : Additive propPdf := by
  intro a b
  simp [propPdf]

theorem nonNeg_propPdf : NonNeg propPdf := by
  intro a
  simp only [propPdf]
  apply List.sum_nonneg
  intro x hx
  simp only [List.mem_map] at hx
  obtain ⟨c, -, rfl⟩ := hx
  unfold propCharWidth
  split
  · norm_num
  · split <;> norm_num

theorem propCharWidth_a : propCharWidth 'a' = 4 := by
  simp [propCharWidth]

theorem propCharWidth_b : propCharWidth 'b' = 2 := by
  rw [propCharWidth, if_neg (by decide), if_pos rfl]

theorem propCharWidth_space : propCharWidth ' ' = 1 := by
  rw [propCharWidth, if_neg (by decide), if_neg (by decide)]

theorem textToUnicode_plainProp (pdf : Fpdf) (t : Str) :
    textToUnicode pdf t plainProp = t := by
  simp [textToUnicode, plainProp]

theorem textToUnicode_extraProp (pdf : Fpdf) (t : Str) :
    textToUnicode pdf t extraProp = t := by
  simp [textToUnicode, extraProp, plainProp]

/-- C3 (defect): under the additive, non-negative metric of `propPdf` (a = 4, b = 2,
space = 1) the text "aab" takes 2 lines at width 6 and 3 lines at width 8, although the
larger width needs no more tokens (2 and 2). At width 8 the first token "aa" fills the
width, so with its separator it does not fit the empty initial line; `getLines` then opens
a new line and leaves the initial one empty: its lines are "", "aa " and "b ". -/
theorem getLinesQuantity_not_monotone :
    Additive propPdf ∧ NonNeg propPdf ∧ plainProp.Extrapolate = false ∧ (6 : ℚ) ≤ 8 ∧
    GetLinesQuantity propPdf ['a', 'a', 'b'] plainProp 6 = some 2 ∧
    GetLinesQuantity propPdf ['a', 'a', 'b'] plainProp 8 = some 3 ∧
    splitText propPdf 6 ['a', 'a', 'b'] = some [['a'], ['a', 'b']] ∧
    splitText propPdf 8 ['a', 'a', 'b'] = some [['a', 'a'], ['b']] ∧
    getLines propPdf [['a'], ['a', 'b']] 6 = [['a', ' '], ['a', 'b', ' ']] ∧
    getLines propPdf [['a', 'a'], ['b']] 8 = [[], ['a', 'a', ' '], ['b', ' ']] := by
  have s6 : splitText propPdf 6 ['a', 'a', 'b'] = some [['a'], ['a', 'b']] := by
    norm_num [splitText, splitTextFuel, splitTextLoop, getLineMaxStr, getLineMaxStrLoop,
      propPdf, propCharWidth_a, propCharWidth_b, propCharWidth_space]
    all_goals simp
  have s8 : splitText propPdf 8 ['a', 'a', 'b'] = some [['a', 'a'], ['b']] := by
    norm_num [splitText, splitTextFuel, splitTextLoop, getLineMaxStr, getLineMaxStrLoop,
      propPdf, propCharWidth_a, propCharWidth_b, propCharWidth_space]
  have h6 : splitText propPdf 6 (textToUnicode propPdf ['a', 'a', 'b'] plainProp) =
      some [['a'], ['a', 'b']] := by
    rw [textToUnicode_plainProp]; exact s6
  have h8 : splitText propPdf 8 (textToUnicode propPdf ['a', 'a', 'b'] plainProp) =
      some [['a', 'a'], ['b']] := by
    rw [textToUnicode_plainProp]; exact s8
  refine ⟨additive_propPdf, nonNeg_propPdf, rfl, by norm_num, ?_, ?_, s6, s8, ?_, ?_⟩
  · rw [GetLinesQuantity_of_split _ _ _ _ _ h6, textToUnicode_plainProp]
    norm_num [getLines, getLinesStep, plainProp, propPdf, propCharWidth_a, propCharWidth_b,
      propCharWidth_space]
  · rw [GetLinesQuantity_of_split _ _ _ _ _ h8, textToUnicode_plainProp]
    norm_num [getLines, getLinesStep, plainProp, propPdf, propCharWidth_a, propCharWidth_b,
      propCharWidth_space]
  · norm_num [getLines, getLinesStep, propPdf, propCharWidth_a, propCharWidth_b,
      propCharWidth_space]
  · norm_num [getLines, getLinesStep, propPdf, propCharWidth_a, propCharWidth_b,
      propCharWidth_space]

theorem splitText_of_err (pdf : Fpdf) (w : ℚ) (t : Str) (h : pdf.Err = true) :
    splitText pdf w t = some [t] := by
  simp [splitText, splitTextFuel, h]

theorem splitText_of_not_err (pdf : Fpdf) (w : ℚ) (t : Str) (h : pdf.Err = false) :
    splitText pdf w t = splitTextLoop pdf w (t.length + 1) t [] := by
  simp [splitText, splitTextFuel, h]

/-- How far the code as it is can depart from monotonicity: for every text and style,
under an additive, non-negative metric, at widths `w1 ≤ w2` at which `GetLinesQuantity`
returns, the count at the larger width is at most one more than the count at the smaller
width (the number of tokens is monotone; the one line is the initial line left empty). -/
theorem getLinesQuantity_near_monotone (pdf : Fpdf) (ha : Additive pdf) (hn : NonNeg pdf)
    (text : Str) (textProp : TextProp) (w1 w2 : ℚ) (hw : w1 ≤ w2) (n1 n2 : Nat)
    (h1 : GetLinesQuantity pdf text textProp w1 = some n1)
    (h2 : GetLinesQuantity pdf text textProp w2 = some n2) : n2 ≤ n1 + 1 := by
  cases hs1 : splitText pdf w1 (textToUnicode pdf text textProp) with
  | none => simp [GetLinesQuantity, hs1] at h1
  | some toks1 =>
    cases hs2 : splitText pdf w2 (textToUnicode pdf text textProp) with
    | none => simp [GetLinesQuantity, hs2] at h2
    | some toks2 =>
      rw [GetLinesQuantity_of_split _ _ _ _ _ hs1] at h1
      rw [GetLinesQuantity_of_split _ _ _ _ _ hs2] at h2
      simp only [Option.some.injEq] at h1 h2
      by_cases hshort : pdf.GetStringWidth (textToUnicode pdf text textProp) < w2 ∨
          textProp.Extrapolate = true ∨ toks2.length = 1
      · rw [if_pos hshort] at h2
        omega
      · rw [if_neg hshort] at h2
        have hshort1 : ¬ (pdf.GetStringWidth (textToUnicode pdf text textProp) < w1 ∨
            textProp.Extrapolate = true) := by
          rintro (h | h)
          · exact hshort (Or.inl (lt_of_lt_of_le h hw))
          · exact hshort (Or.inr (Or.inl h))
        cases herr : pdf.Err with
        | true =>
          rw [splitText_of_err pdf w2 _ herr] at hs2
          simp only [Option.some.injEq] at hs2
          exact absurd (by rw [← hs2]; rfl) (fun h => hshort (Or.inr (Or.inr h)))
        | false =>
          rw [splitText_of_not_err pdf _ _ herr] at hs1 hs2
          have hlen := splitTextLoop_length_mono pdf ha hn w1 w2 hw _ _ _ _ toks1 toks2
            (List.suffix_refl _) hs1 hs2
          have hchain := (splitTextLoop_chain pdf w1 _ _ toks1 hs1).1
          have hpos : 1 ≤ toks2.length := by
            have := (splitTextLoop_chain pdf w2 _ _ toks2 hs2).2
            cases toks2 with
            | nil => simp at this
            | cons a b => simp
          have hne1 : toks1.length ≠ 1 := by
            intro h
            exact hshort (Or.inr (Or.inr (by omega)))
          rw [if_neg (by
            rintro (h | h | h)
            · exact hshort1 (Or.inl h)
            · exact hshort1 (Or.inr h)
            · exact hne1 h)] at h1
          have hge := getLines_length_ge_of_chain pdf w1 ha hn toks1 hchain
          have hle := getLines_length_le pdf w2 toks2
          omega

theorem getLinesQuantity_near_monotone_witness :
    GetLinesQuantity propPdf ['a', 'a', 'b'] plainProp 8 = some 3 ∧ 3 ≤ 2 + 1 := by
  have h6 : splitText propPdf 6 (textToUnicode propPdf ['a', 'a', 'b'] plainProp) =
      some [['a'], ['a', 'b']] := by
    rw [textToUnicode_plainProp]
    norm_num [splitText, splitTextFuel, splitTextLoop, getLineMaxStr, getLineMaxStrLoop,
      propPdf, propCharWidth_a, propCharWidth_b, propCharWidth_space]
    all_goals simp
  have h8 : splitText propPdf 8 (textToUnicode propPdf ['a', 'a', 'b'] plainProp) =
      some [['a', 'a'], ['b']] := by
    rw [textToUnicode_plainProp]
    norm_num [splitText, splitTextFuel, splitTextLoop, getLineMaxStr, getLineMaxStrLoop,
      propPdf, propCharWidth_a, propCharWidth_b, propCharWidth_space]
  have g6 : GetLinesQuantity propPdf ['a', 'a', 'b'] plainProp 6 = some 2 := by
    rw [GetLinesQuantity_of_split _ _ _ _ _ h6, textToUnicode_plainProp]
    norm_num [getLines, getLinesStep, plainProp, propPdf, propCharWidth_a, propCharWidth_b,
      propCharWidth_space]
  have g8 : GetLinesQuantity propPdf ['a', 'a', 'b'] plainProp 8 = some 3 := by
    rw [GetLinesQuantity_of_split _ _ _ _ _ h8, textToUnicode_plainProp]
    norm_num [getLines, getLinesStep, plainProp, propPdf, propCharWidth_a, propCharWidth_b,
      propCharWidth_space]
  exact ⟨g8, getLinesQuantity_near_monotone propPdf additive_propPdf nonNeg_propPdf
    ['a', 'a', 'b'] plainProp 6 8 (by norm_num) 2 3 g6 g8⟩

/-- C5 (counterexample): the empty text has no whitespace, every character of it fits,
and at width -1 its rendered width 0 is strictly greater than the width, yet
`GetLinesQuantity` returns 1; and on a surface in its error state the text "ab" at width 1
(each character fits, the text does not) is one token, for which `GetLinesQuantity`
returns 1. -/
theorem getLinesQuantity_one_on_wide_text :
    (Additive unitPdf ∧ NonNeg unitPdf ∧ plainProp.Extrapolate = false ∧
      unitPdf.GetStringWidth (textToUnicode unitPdf [] plainProp) > -1 ∧
      (∀ c ∈ textToUnicode unitPdf [] plainProp, c ≠ ' ' ∧ unitPdf.GetStringWidth [c] ≤ -1) ∧
      GetLinesQuantity unitPdf [] plainProp (-1) = some 1) ∧
    (Additive errPdf ∧ NonNeg errPdf ∧
      errPdf.GetStringWidth (textToUnicode errPdf ['a', 'b'] plainProp) > 1 ∧
      (∀ c ∈ textToUnicode errPdf ['a', 'b'] plainProp,
        c ≠ ' ' ∧ errPdf.GetStringWidth [c] ≤ 1) ∧
      GetLinesQuantity errPdf ['a', 'b'] plainProp 1 = some 1) := by
  refine ⟨⟨additive_unitPdf, nonNeg_unitPdf, rfl, ?_, ?_, ?_⟩,
    ⟨additive_unitPdf, nonNeg_unitPdf, ?_, ?_, ?_⟩⟩
  · rw [textToUnicode_plainProp]
    norm_num [unitPdf]
  · rw [textToUnicode_plainProp]
    simp
  · have hs : splitText unitPdf (-1) (textToUnicode unitPdf [] plainProp) = some [[]] := by
      rw [textToUnicode_plainProp]
      simp [splitText, splitTextFuel, splitTextLoop, getLineMaxStr, getLineMaxStrLoop, unitPdf]
    rw [GetLinesQuantity_of_split _ _ _ _ _ hs]
    simp
  · rw [textToUnicode_plainProp]
    norm_num [errPdf, unitPdf]
  · rw [textToUnicode_plainProp]
    intro c hc
    simp only [List.mem_cons, List.mem_singleton, List.not_mem_nil, or_false] at hc
    rcases hc with rfl | rfl
    · exact ⟨by decide, by simp [errPdf, unitPdf]⟩
    · exact ⟨by decide, by simp [errPdf, unitPdf]⟩
  · have hs : splitText errPdf 1 (textToUnicode errPdf ['a', 'b'] plainProp) =
        some [textToUnicode errPdf ['a', 'b'] plainProp] := splitText_of_err _ _ _ rfl
    rw [GetLinesQuantity_of_split _ _ _ _ _ hs]
    simp

/-- C5 (amended): for every non-empty (encoded) text whose rendered width is strictly
greater than the available width, with extrapolate unset, the surface not in its error
state, every single character fitting the width and an additive, non-negative metric,
`Add` draws at least 2 lines and `GetLinesQuantity` returns at least 2 (whether or not
the text contains whitespace). -/
theorem wrap_wide_text_two_lines (pdf : Fpdf) (font : Font) (text : Str) (cell : Cell)
    (textProp : TextProp) (ha : Additive pdf) (hn : NonNeg pdf)
    (hext : textProp.Extrapolate = false) (herr : pdf.Err = false)
    (hne : textToUnicode pdf text textProp ≠ [])
    (hfit : ∀ c ∈ textToUnicode pdf text textProp, pdf.GetStringWidth [c] ≤ cell.Width)
    (hwide : pdf.GetStringWidth (textToUnicode pdf text textProp) > cell.Width) :
    (∃ lines, drawnLines (Add pdf font text cell textProp) = some lines ∧ 2 ≤ lines.length) ∧
    (∃ n, GetLinesQuantity pdf text textProp cell.Width = some n ∧ 2 ≤ n) := by
  obtain ⟨toks, e, g1, g2, -⟩ := splitTextLoop_tokens pdf cell.Width
    ((textToUnicode pdf text textProp).length + 1) _ hne hfit (by omega)
  have hflat := splitTextLoop_flatten pdf _ _ _ _ e
  have hs : splitText pdf cell.Width (textToUnicode pdf text textProp) = some toks := by
    rw [splitText_of_not_err pdf _ _ herr, e]
  have hlen : 2 ≤ toks.length := by
    match toks, hflat, g1 with
    | [], hflat, _ => exact absurd hflat.symm (by simpa using hne)
    | [x], hflat, g1 =>
      simp only [List.flatten_cons, List.flatten_nil, List.append_nil] at hflat
      have := (g1 x (by simp)).2
      rw [hflat] at this
      linarith
    | _ :: _ :: _, _, _ => simp
  have hlines := getLines_length_ge_of_chain pdf cell.Width ha hn toks g2
  have hnot : ¬ (pdf.GetStringWidth (textToUnicode pdf text textProp) < cell.Width) :=
    not_lt.mpr (le_of_lt hwide)
  constructor
  · refine ⟨_, Add_of_split pdf font text cell textProp toks hs, ?_⟩
    rw [if_neg (by simp [hnot, hext])]
    omega
  · refine ⟨_, GetLinesQuantity_of_split pdf text textProp cell.Width toks hs, ?_⟩
    rw [if_neg (by simp only [hnot, hext, false_or, Bool.false_eq_true]; omega)]
    omega

theorem wrap_wide_text_two_lines_witness :
    (∃ lines, drawnLines (Add unitPdf unitFont ['a', 'b', 'c'] ⟨0, 0, 2, 0⟩ plainProp) =
      some lines ∧ 2 ≤ lines.length) ∧
    (∃ n, GetLinesQuantity unitPdf ['a', 'b', 'c'] plainProp 2 = some n ∧ 2 ≤ n) :=
  wrap_wide_text_two_lines unitPdf unitFont ['a', 'b', 'c'] ⟨0, 0, 2, 0⟩ plainProp
    additive_unitPdf nonNeg_unitPdf rfl rfl (by rw [textToUnicode_plainProp]; simp)
    (by rw [textToUnicode_plainProp]; simp [unitPdf])
    (by rw [textToUnicode_plainProp]; norm_num [unitPdf])

/-- C6 (counterexample): with one unit per character, "aaaa" at width 3 (each character
fits, extrapolate unset) is drawn by `Add` as the lines "", "aaa " and "a "; the line
"aaa " is 4 units wide. -/
theorem add_line_wider_than_width :
    drawnLines (Add unitPdf unitFont ['a', 'a', 'a', 'a'] ⟨0, 0, 3, 0⟩ plainProp) =
      some [[], ['a', 'a', 'a', ' '], ['a', ' ']] ∧
    (∀ c ∈ textToUnicode unitPdf ['a', 'a', 'a', 'a'] plainProp,
      unitPdf.GetStringWidth [c] ≤ 3) ∧
    plainProp.Extrapolate = false ∧
    unitPdf.GetStringWidth ['a', 'a', 'a', ' '] > 3 := by
  have hs : splitText unitPdf (3 : ℚ) (textToUnicode unitPdf ['a', 'a', 'a', 'a'] plainProp) =
      some [['a', 'a', 'a'], ['a']] := by
    rw [textToUnicode_plainProp]
    norm_num [splitText, splitTextFuel, splitTextLoop, getLineMaxStr, getLineMaxStrLoop,
      unitPdf]
  refine ⟨?_, ?_, rfl, by norm_num [unitPdf]⟩
  · rw [Add_of_split unitPdf unitFont _ ⟨0, 0, 3, 0⟩ plainProp _ hs, textToUnicode_plainProp]
    norm_num [getLines, getLinesStep, plainProp, unitPdf]
  · rw [textToUnicode_plainProp]
    simp [unitPdf]

/-- C6 (amended): for every text, style with extrapolate unset and available width
`≥ 0` such that each single character of the (encoded) text fits the width, on a surface
not in its error state and under an additive, non-negative metric, `Add` draws its lines
and every line it hands to the surface either fits the width or is a text that fits the
width followed by the one separator phase 2 appends. -/
theorem add_lines_fit_before_separator (pdf : Fpdf) (font : Font) (text : Str) (cell : Cell)
    (textProp : TextProp) (ha : Additive pdf) (hn : NonNeg pdf)
    (hext : textProp.Extrapolate = false) (herr : pdf.Err = false) (hw : 0 ≤ cell.Width)
    (hfit : ∀ c ∈ textToUnicode pdf text textProp, pdf.GetStringWidth [c] ≤ cell.Width) :
    ∃ lines, drawnLines (Add pdf font text cell textProp) = some lines ∧
      ∀ l ∈ lines, pdf.GetStringWidth l ≤ cell.Width ∨
        ∃ x, l = x ++ [' '] ∧ pdf.GetStringWidth x ≤ cell.Width := by
  have hsplit : ∃ toks, splitText pdf cell.Width (textToUnicode pdf text textProp) = some toks ∧
      ∀ x ∈ toks, pdf.GetStringWidth x ≤ cell.Width := by
    by_cases hne : textToUnicode pdf text textProp = []
    · refine ⟨[[]], ?_, ?_⟩
      · rw [splitText_of_not_err pdf _ _ herr, hne]
        simp [splitTextLoop, getLineMaxStr_nil]
      · intro x hx
        simp only [List.mem_singleton] at hx
        rw [hx, additive_nil pdf ha]
        exact hw
    · obtain ⟨toks, e, g1, -, -⟩ := splitTextLoop_tokens pdf cell.Width
        ((textToUnicode pdf text textProp).length + 1) _ hne hfit (by omega)
      exact ⟨toks, by rw [splitText_of_not_err pdf _ _ herr, e], fun x hx => (g1 x hx).2⟩
  obtain ⟨toks, hs, htoks⟩ := hsplit
  refine ⟨_, Add_of_split pdf font text cell textProp toks hs, ?_⟩
  intro l hl
  split at hl
  · next hshort =>
    simp only [List.mem_singleton] at hl
    rw [hl]
    rcases hshort with h | h
    · exact Or.inl (le_of_lt h)
    · rw [hext] at h
      exact absurd h (by simp)
  · rcases getLines_fits pdf cell.Width ha hn toks htoks l hl with h | h
    · left
      rw [h, additive_nil pdf ha]
      exact hw
    · exact Or.inr h

theorem add_lines_fit_before_separator_witness :
    ∃ lines, drawnLines (Add unitPdf unitFont ['a', 'a', 'a', 'a'] ⟨0, 0, 3, 0⟩ plainProp) =
        some lines ∧
      ∀ l ∈ lines, unitPdf.GetStringWidth l ≤ (3 : ℚ) ∨
        ∃ x, l = x ++ [' '] ∧ unitPdf.GetStringWidth x ≤ (3 : ℚ) :=
  add_lines_fit_before_separator unitPdf unitFont ['a', 'a', 'a', 'a'] ⟨0, 0, 3, 0⟩ plainProp
    additive_unitPdf nonNeg_unitPdf rfl rfl (by norm_num)
    (by rw [textToUnicode_plainProp]; simp [unitPdf])

/-- C9 (defect): with the extrapolate flag set, the text "a" at width 0 (one unit per
character, surface not in its error state): `splitText` is called before the flag is
looked at and never returns, so neither `GetLinesQuantity` nor `Add` returns. -/
theorem extrapolate_narrow_width_diverges :
    extraProp.Extrapolate = true ∧
    (∀ fuel, splitTextFuel fuel unitPdf 0 (textToUnicode unitPdf ['a'] extraProp) = none) ∧
    GetLinesQuantity unitPdf ['a'] extraProp 0 = none ∧
    Add unitPdf unitFont ['a'] ⟨0, 0, 0, 0⟩ extraProp = none := by
  have hw : unitPdf.GetStringWidth ['a'] > 0 := by simp [unitPdf]
  have hall : ∀ fuel, splitTextFuel fuel unitPdf 0 (textToUnicode unitPdf ['a'] extraProp) =
      none := by
    intro fuel
    rw [textToUnicode_extraProp]
    simp only [splitTextFuel, unitPdf, Bool.false_eq_true, if_false]
    exact splitTextLoop_stuck _ 0 'a' [] hw fuel []
  have hs : splitText unitPdf 0 (textToUnicode unitPdf ['a'] extraProp) = none := hall _
  refine ⟨rfl, hall, ?_, ?_⟩
  · simp only [GetLinesQuantity, hs]
  · simp only [Add, hs]

/-- C10 (defect): for the empty text at width 0 (extrapolate unset, one unit per
character) `GetLinesQuantity` returns 1, but `Add` draws two lines, the empty line and a
line holding one separator: it has no single-token shortcut, and phase 2 opens a second
line for the empty token. -/
theorem add_empty_text_zero_width_two_lines :
    drawnLines (Add unitPdf unitFont [] ⟨0, 0, 0, 0⟩ plainProp) = some [[], [' ']] ∧
    GetLinesQuantity unitPdf [] plainProp 0 = some 1 := by
  have hs : splitText unitPdf (0 : ℚ) (textToUnicode unitPdf [] plainProp) = some [[]] := by
    rw [textToUnicode_plainProp]
    simp [splitText, splitTextFuel, splitTextLoop, getLineMaxStr, getLineMaxStrLoop, unitPdf]
  constructor
  · rw [Add_of_split unitPdf unitFont _ ⟨0, 0, 0, 0⟩ plainProp _ hs, textToUnicode_plainProp]
    norm_num [getLines, getLinesStep, plainProp, unitPdf]
  · rw [GetLinesQuantity_of_split _ _ _ _ _ hs]
    simp

/-! ## `tablelist.go`: `calcLinesHeight`, `Create` -/

theorem rowTexts_append (a b : List Call) : rowTexts (a ++ b) = rowTexts a ++ rowTexts b := by
  simp [rowTexts, List.filterMap_append]

/-- The measuring loop returns when the units cover the cells; it appends one height per
cell and makes no `Row` call. -/
theorem calcLinesLoop_ok {σ : Type} (W : World σ) (contentProp : TableListContent)
    (textProp : TextProp) (uw mgs : ℚ) (textList : List Str) (i : Nat) (maxLines : ℚ)
    (lh : List ℚ) (r : Run σ) (hlen : i + textList.length ≤ contentProp.GridSizes.length) :
    ∃ maxLines1 lh1 r1 calls,
      calcLinesLoop W contentProp textProp uw mgs i textList maxLines lh r =
        some (maxLines1, lh1, r1) ∧
      lh1.length = lh.length + textList.length ∧
      r1.log = r.log ++ calls ∧ rowTexts calls = [] := by
  induction textList generalizing i maxLines lh r with
  | nil => exact ⟨maxLines, lh, r, [], rfl, by simp, by simp, rfl⟩
  | cons t rest ih =>
    simp only [List.length_cons] at hlen
    have hi : i < contentProp.GridSizes.length := by omega
    simp only [calcLinesLoop, List.getElem?_eq_getElem hi]
    obtain ⟨m1, l1, r1, calls, e, hl, hlog, ht⟩ := ih (i + 1)
      (if ((W.GetLinesQuantity t textProp (uw * ((contentProp.GridSizes[i] : ℚ) / mgs)) r.st).1 : ℚ)
          > maxLines
        then ((W.GetLinesQuantity t textProp (uw * ((contentProp.GridSizes[i] : ℚ) / mgs)) r.st).1 : ℚ)
        else maxLines)
      (lh ++ [((W.GetLinesQuantity t textProp (uw * ((contentProp.GridSizes[i] : ℚ) / mgs)) r.st).1 : ℚ)])
      ⟨(W.GetLinesQuantity t textProp (uw * ((contentProp.GridSizes[i] : ℚ) / mgs)) r.st).2,
        r.log ++ [Call.GetLinesQuantity t textProp (uw * ((contentProp.GridSizes[i] : ℚ) / mgs))]⟩
      (by omega)
    refine ⟨m1, l1, r1, Call.GetLinesQuantity t textProp
      (uw * ((contentProp.GridSizes[i] : ℚ) / mgs)) :: calls, e, ?_, ?_, ?_⟩
    · rw [hl]; simp; omega
    · rw [hlog]; simp
    · simp only [rowTexts, List.filterMap_cons, Call.rowCells]
      exact ht

/-- `calcLinesHeight` in terms of what its measuring loop returns. -/
theorem calcLinesHeight_of_loop {σ : Type} (W : World σ) (pkg : Pkg) (textList : List Str)
    (contentProp : TableListContent) (align : Align) (r : Run σ) (maxLines : ℚ)
    (lh : List ℚ) (r3 : Run σ)
    (h : calcLinesLoop W contentProp (pkg.ToTextProp contentProp align 0 false 0)
      ((W.GetPageSize r.st).1 - (W.GetPageMargins r.st).1 - (W.GetPageMargins r.st).2.2.1)
      (customizeMaxGridSum pkg contentProp) 0 textList 1 []
      ((r.read Call.GetPageMargins).read Call.GetPageSize) = some (maxLines, lh, r3)) :
    calcLinesHeight W pkg textList contentProp align r =
      some ((W.GetFont r3.st).2.2 / W.GetScaleFactor r3.st * maxLines,
        lh.map (fun f => (W.GetFont r3.st).2.2 / W.GetScaleFactor r3.st * f),
        (r3.read Call.GetFont).read Call.GetScaleFactor) := by
  simp only [calcLinesHeight, h]

/-- `calcLinesHeight` returns when the units cover the cells; it returns one height per
cell and makes no `Row` call. -/
theorem calcLinesHeight_ok {σ : Type} (W : World σ) (pkg : Pkg) (textList : List Str)
    (contentProp : TableListContent) (align : Align) (r : Run σ)
    (hlen : textList.length ≤ contentProp.GridSizes.length) :
    ∃ h lh r1 calls,
      calcLinesHeight W pkg textList contentProp align r = some (h, lh, r1) ∧
      lh.length = textList.length ∧ r1.log = r.log ++ calls ∧ rowTexts calls = [] := by
  obtain ⟨m1, l1, r1, calls, e, hl, hlog, ht⟩ := calcLinesLoop_ok W contentProp
    (pkg.ToTextProp contentProp align 0 false 0)
    ((W.GetPageSize r.st).1 - (W.GetPageMargins r.st).1 - (W.GetPageMargins r.st).2.2.1)
    (customizeMaxGridSum pkg contentProp) textList 0 1 []
    ((r.read Call.GetPageMargins).read Call.GetPageSize) (by simpa using hlen)
  refine ⟨_, _, _, [Call.GetPageMargins, Call.GetPageSize] ++ calls ++
    [Call.GetFont, Call.GetScaleFactor],
    calcLinesHeight_of_loop W pkg textList contentProp align r m1 l1 r1 e, ?_, ?_, ?_⟩
  · simpa using hl
  · simp [Run.read, hlog]
  · simp only [rowTexts_append, ht]
    simp [rowTexts, Call.rowCells]

/-- The closure of a row can be built when heights, units and alignments cover the
cells; it draws exactly the cells, in order. -/
theorem rowClosure_ok (pkg : Pkg) (contentProp : TableListContent) (aligns : List Align)
    (mgs rowHeight extraTop : ℚ) (lh : List ℚ) (cells : List Str) (i : Nat)
    (h1 : i + cells.length ≤ lh.length) (h2 : i + cells.length ≤ contentProp.GridSizes.length)
    (h3 : i + cells.length ≤ aligns.length) :
    ∃ cols, rowClosure pkg contentProp aligns mgs rowHeight extraTop lh i cells = some cols ∧
      (cols.map ColCall.texts).flatten = cells := by
  induction cells generalizing i with
  | nil => exact ⟨[], rfl, rfl⟩
  | cons c rest ih =>
    simp only [List.length_cons] at h1 h2 h3
    obtain ⟨cols, e, ht⟩ := ih (i + 1) (by omega) (by omega) (by omega)
    have g1 : i < lh.length := by omega
    have g2 : i < contentProp.GridSizes.length := by omega
    have g3 : i < aligns.length := by omega
    refine ⟨ColCall.ColWithMaxGridSum contentProp.GridSizes[i] c
      (pkg.ToTextProp contentProp aligns[i] ((rowHeight - lh[i]) / 2 + extraTop) false 0) mgs
      :: cols, ?_, ?_⟩
    · simp only [rowClosure, List.getElem?_eq_getElem g1, List.getElem?_eq_getElem g2,
        List.getElem?_eq_getElem g3, e]
    · simp [ColCall.texts, ht]

theorem rowTexts_snoc_row (l : List Call) (h : ℚ) (cols : List ColCall) :
    rowTexts (l ++ [Call.Row h cols]) = rowTexts l ++ [(cols.map ColCall.texts).flatten] := by
  simp [rowTexts, List.filterMap_append, Call.rowCells]

theorem rowTexts_snoc_other (l : List Call) (c : Call) (h : c.rowCells = none) :
    rowTexts (l ++ [c]) = rowTexts l := by
  simp [rowTexts, List.filterMap_append, h]

theorem rowTexts_setAlternatedBackground {σ : Type} (W : World σ) (tableProp : TableList)
    (index : Nat) (r : Run σ) :
    rowTexts (setAlternatedBackground W tableProp index r).log = rowTexts r.log := by
  unfold setAlternatedBackground
  split
  · split
    · simp only [Run.call]
      rw [rowTexts_snoc_other _ _ (by rfl)]
    · rfl
  · rfl

theorem rowTexts_resetBackground {σ : Type} (W : World σ) (tableProp : TableList)
    (index : Nat) (r : Run σ) :
    rowTexts (resetBackground W tableProp index r).log = rowTexts r.log := by
  unfold resetBackground
  split
  · split
    · simp only [Run.call]
      rw [rowTexts_snoc_other _ _ (by rfl)]
    · rfl
  · rfl

theorem rowTexts_drawSeparatorLine {σ : Type} (W : World σ) (tableProp : TableList)
    (r : Run σ) : rowTexts (drawSeparatorLine W tableProp r).log = rowTexts r.log := by
  unfold drawSeparatorLine
  split
  · simp only [Run.call]
    rw [rowTexts_snoc_other _ _ (by rfl)]
  · rfl

/-- The probe of a row returns when the units cover its cells; it makes no `Row` call. -/
theorem rowProbe_spec {σ : Type} (W : World σ) (pkg : Pkg) (tableProp : TableList)
    (index : Nat) (content : List Str) (r : Run σ)
    (hlen : content.length ≤ tableProp.ContentProp.GridSizes.length) :
    ∃ ch lh r1, rowProbe W pkg tableProp index content r = some (ch, lh, r1) ∧
      lh.length = content.length ∧ rowTexts r1.log = rowTexts r.log := by
  obtain ⟨h, lh, r', calls, e, hl, hlog, ht⟩ :=
    calcLinesHeight_ok W pkg content tableProp.ContentProp tableProp.Align r hlen
  have hr' : rowTexts r'.log = rowTexts r.log := by
    rw [hlog, rowTexts_append, ht, List.append_nil]
  cases hp : rowProbe W pkg tableProp index content r with
  | none => simp [rowProbe, e] at hp
  | some res =>
    obtain ⟨ch, lh1, r1⟩ := res
    refine ⟨ch, lh1, r1, rfl, ?_, ?_⟩
    · simp only [rowProbe, e, Option.some.injEq, Prod.mk.injEq] at hp
      rw [← hp.2.1]
      exact hl
    · simp only [rowProbe, e, Option.some.injEq, Prod.mk.injEq] at hp
      rw [← hp.2.2]
      simp only [Run.read]
      rw [rowTexts_snoc_other _ _ (by rfl), rowTexts_snoc_other _ _ (by rfl),
        rowTexts_snoc_other _ _ (by rfl), rowTexts_setAlternatedBackground, hr']

/-- A row can be emitted when heights, units and alignments cover its cells; exactly one
`Row` call is made, drawing the cells of the row. -/
theorem rowEmit_spec {σ : Type} (W : World σ) (pkg : Pkg) (tableProp : TableList) (mgs : ℚ)
    (index : Nat) (content : List Str) (ch : ℚ) (lh : List ℚ) (r : Run σ)
    (h1 : content.length ≤ lh.length)
    (h2 : content.length ≤ tableProp.ContentProp.GridSizes.length)
    (h3 : content.length ≤ tableProp.Aligns.length) :
    ∃ r2, rowEmit W pkg tableProp mgs index content ch lh r = some r2 ∧
      rowTexts r2.log = rowTexts r.log ++ [content] := by
  obtain ⟨cols, e, ht⟩ := rowClosure_ok pkg tableProp.ContentProp tableProp.Aligns mgs ch
    (tableProp.VerticalContentPadding / 2) lh content 0 (by simpa using h1)
    (by simpa using h2) (by simpa using h3)
  cases hp : rowEmit W pkg tableProp mgs index content ch lh r with
  | none => simp [rowEmit, e] at hp
  | some r2 =>
    refine ⟨r2, rfl, ?_⟩
    simp only [rowEmit, e, Option.some.injEq] at hp
    rw [← hp]
    have hrow : rowTexts (r.call (Call.Row (ch + tableProp.VerticalContentPadding + 1) cols)
        (W.Row (ch + tableProp.VerticalContentPadding + 1) cols)).log =
        rowTexts r.log ++ [content] := by
      simp only [Run.call]
      rw [rowTexts_snoc_row, ht]
    rw [rowTexts_drawSeparatorLine, rowTexts_resetBackground, hrow]

/-- The header part of `Create` returns on a well-shaped header; it makes two `Row`
calls: the header row, drawing the header cells, and the spacer row, drawing nothing. -/
theorem createHeader_spec {σ : Type} (W : World σ) (pkg : Pkg) (header : List Str)
    (tableProp : TableList) (mgs : ℚ) (r : Run σ)
    (h2 : header.length ≤ tableProp.HeaderProp.GridSizes.length)
    (h3 : header.length ≤ tableProp.Aligns.length) :
    ∃ r0, createHeader W pkg header tableProp mgs r = some r0 ∧
      rowTexts r0.log = rowTexts r.log ++ [header, []] := by
  obtain ⟨h, lh, r', calls, e, hl, hlog, ht⟩ :=
    calcLinesHeight_ok W pkg header tableProp.HeaderProp tableProp.Align r h2
  obtain ⟨cols, ec, hc⟩ := rowClosure_ok pkg tableProp.HeaderProp tableProp.Aligns mgs h 0 lh
    header 0 (by simp [hl]) (by simpa using h2) (by simpa using h3)
  refine ⟨(r'.call (Call.Row (h + 1) cols) (W.Row (h + 1) cols)).call
    (Call.Row tableProp.HeaderContentSpace [ColCall.ColSpace 0])
    (W.Row tableProp.HeaderContentSpace [ColCall.ColSpace 0]),
    by simp only [createHeader, e, ec], ?_⟩
  simp only [Run.call]
  rw [rowTexts_snoc_row, rowTexts_snoc_row, hc, hlog, rowTexts_append, ht]
  simp [ColCall.texts]

/-- The content loop of `Create`, started at row `done.length` in the run that emitting
every earlier row leads to: it returns, and stops at the first row on which the overflow
test fires; the rows before it are each reached, tested negative and drawn by one `Row`
call, in order, and no other `Row` call is made. -/
theorem createLoop_spec {σ : Type} (W : World σ) (pkg : Pkg) (tp : TableList) (mgs : ℚ)
    (contents : List (List Str)) (r0 : Run σ) (rest : List (List Str)) :
    ∀ (done : List (List Str)) (r : Run σ), contents = done ++ rest →
      (∀ row ∈ rest, row.length ≤ tp.ContentProp.GridSizes.length ∧
        row.length ≤ tp.Aligns.length) →
      rowStart W pkg tp mgs contents r0 done.length = some r →
      ∃ brk r' k, createLoop W pkg tp mgs done.length rest r = some (brk, r') ∧
        k = brk.getD contents.length ∧ done.length ≤ k ∧ k ≤ contents.length ∧
        (∀ j, done.length ≤ j → j < k →
          RowReached W pkg tp mgs contents r0 j (fun ch s => ¬ overflows W ch s)) ∧
        (k < contents.length →
          RowReached W pkg tp mgs contents r0 k (fun ch s => overflows W ch s)) ∧
        rowTexts r'.log = rowTexts r.log ++ rest.take (k - done.length) := by
  induction rest with
  | nil =>
    intro done r hc _ _
    refine ⟨none, r, contents.length, rfl, rfl, ?_, le_refl _, ?_, ?_, by simp⟩
    · rw [hc]; simp
    · intro j h1 h2
      rw [hc] at h2
      simp at h2
      omega
    · intro h; omega
  | cons content rest ih =>
    intro done r hc hshape hstart
    have hrow := hshape content (by simp)
    obtain ⟨ch, lh, r1, hp, hl, ht⟩ := rowProbe_spec W pkg tp done.length content r hrow.1
    have hget : contents[done.length]? = some content := by
      rw [hc, List.getElem?_append_right (le_refl _)]
      simp
    have hlt : done.length < contents.length := by
      rw [hc]; simp
    by_cases hov : overflows W ch r1.st
    · refine ⟨some done.length, r1.call (Call.SetBorder false) (W.SetBorder false),
        done.length, ?_, rfl, le_refl _, le_of_lt hlt, ?_, ?_, ?_⟩
      · simp only [createLoop, hp, if_pos hov]
      · intro j h1 h2; omega
      · intro _
        exact ⟨r, content, ch, lh, r1, hstart, hget, hp, hov⟩
      · simp only [Run.call]
        rw [rowTexts_snoc_other _ _ (by rfl), ht]
        simp
    · obtain ⟨r2, he, ht2⟩ := rowEmit_spec W pkg tp mgs done.length content ch lh r1
        (by omega) hrow.1 hrow.2
      have hnext : rowStart W pkg tp mgs contents r0 (done ++ [content]).length = some r2 := by
        rw [List.length_append, List.length_singleton]
        simp only [rowStart, hstart, hget, hp, he]
      obtain ⟨brk, r', k, e, hk, hk1, hk2, hfit, hover, hlog⟩ := ih (done ++ [content]) r2
        (by rw [hc]; simp) (fun row hr => hshape row (List.mem_cons_of_mem _ hr)) hnext
      rw [List.length_append, List.length_singleton] at e hk1 hfit hlog
      refine ⟨brk, r', k, ?_, hk, by omega, hk2, ?_, hover, ?_⟩
      · simp only [createLoop, hp, if_neg hov, he]
        exact e
      · intro j h1 h2
        by_cases hj : j = done.length
        · subst hj
          exact ⟨r, content, ch, lh, r1, hstart, hget, hp, hov⟩
        · exact hfit j (by omega) h2
      · rw [hlog, ht2, ht]
        obtain ⟨m, hm⟩ : ∃ m, k - done.length = m + 1 := ⟨k - done.length - 1, by omega⟩
        have hm2 : k - (done.length + 1) = m := by omega
        rw [hm, hm2]
        simp

/-- What `Create` does on a well-shaped table with a non-empty header and at least one
content row. -/
theorem create_spec {σ : Type} (W : World σ) (pkg : Pkg) (header : List Str)
    (contents : List (List Str)) (dff : Str) (prop : List TableList) (r : Run σ)
    (hh : header ≠ []) (hc : contents ≠ [])
    (hshape : WellShaped pkg header contents dff prop) :
    ∃ r0 k r', createHeader W pkg header (validProp pkg header dff prop)
        (createMaxGridSum pkg header prop) r = some r0 ∧
      Create W pkg header contents dff prop r = some (k, r') ∧ k ≤ contents.length ∧
      (∀ j, j < k → RowReached W pkg (validProp pkg header dff prop)
        (createMaxGridSum pkg header prop) contents r0 j (fun ch s => ¬ overflows W ch s)) ∧
      (k < contents.length → RowReached W pkg (validProp pkg header dff prop)
        (createMaxGridSum pkg header prop) contents r0 k (fun ch s => overflows W ch s)) ∧
      rowTexts r'.log = rowTexts r.log ++ header :: [] :: contents.take k := by
  obtain ⟨h1, h2, h3⟩ := hshape
  obtain ⟨r0, e0, ht0⟩ := createHeader_spec W pkg header (validProp pkg header dff prop)
    (createMaxGridSum pkg header prop) r h1 h2
  obtain ⟨brk, r', k, e, hk, -, hk2, hfit, hover, hlog⟩ := createLoop_spec W pkg
    (validProp pkg header dff prop) (createMaxGridSum pkg header prop) contents r0 contents
    [] r0 rfl h3 rfl
  refine ⟨r0, k, r'.call (Call.SetBorder false) (W.SetBorder false), e0, ?_, hk2,
    fun j hj => hfit j (Nat.zero_le _) hj, hover, ?_⟩
  · have hh' : header.length ≠ 0 := by simpa using hh
    have hc' : contents.length ≠ 0 := by simpa using hc
    simp only [List.length_nil] at e
    simp only [Create, if_neg hh', if_neg hc', e0, e, hk]
  · simp only [Run.call]
    rw [rowTexts_snoc_other _ _ (by rfl), hlog, ht0]
    simp

theorem RowReached_mono {σ : Type} (W : World σ) (pkg : Pkg) (tp : TableList) (mgs : ℚ)
    (contents : List (List Str)) (r0 : Run σ) (j : Nat) (P Q : ℚ → σ → Prop)
    (hPQ : ∀ ch s, P ch s → Q ch s) (h : RowReached W pkg tp mgs contents r0 j P) :
    RowReached W pkg tp mgs contents r0 j Q := by
  obtain ⟨r, content, ch, lh, r1, h1, h2, h3, h4⟩ := h
  exact ⟨r, content, ch, lh, r1, h1, h2, h3, hPQ _ _ h4⟩

theorem overflows_iff {σ : Type} (W : World σ) (ch : ℚ) (s : σ) :
    overflows W ch s ↔ W.GetCurrentOffset s >
      ((W.GetPageSize s).2 - (W.GetPageMargins s).2.1 - (W.GetPageMargins s).2.2.2)
        - ch - 1 - 7 := by
  unfold overflows maxOffsetPage
  rw [sub_right_comm (W.GetPageSize s).2]

/-- C2: for every non-empty header, every list of at least one content row and every
table style, on a well-shaped table (no row has more cells than there are column units
and alignments, the shape contract of the data model), `Create` returns a `k` with
`k ≤ N`; every row `j < k` is reached with a current offset that is not greater than
`(pageHeight - topMargin - bottomMargin) - contentHeight(row j) - 1 - 7`; if `k < N`,
row `k` is reached with a current offset greater than that bound for row `k`; and the
`Row` calls `Create` makes are, in order, the header row, the spacer row and the content
rows `0..k-1`, so none for the rows `k..N-1`. -/
theorem create_returns_first_overflow {σ : Type} (W : World σ) (pkg : Pkg)
    (header : List Str) (contents : List (List Str)) (defaultFontFamily : Str)
    (prop : List TableList) (r : Run σ) (hh : header ≠ []) (hc : 1 ≤ contents.length)
    (hshape : WellShaped pkg header contents defaultFontFamily prop) :
    ∃ r0 k r', createHeader W pkg header (validProp pkg header defaultFontFamily prop)
        (createMaxGridSum pkg header prop) r = some r0 ∧
      Create W pkg header contents defaultFontFamily prop r = some (k, r') ∧
      k ≤ contents.length ∧
      (∀ j, j < k → RowReached W pkg (validProp pkg header defaultFontFamily prop)
        (createMaxGridSum pkg header prop) contents r0 j
        (fun contentHeight s => ¬ W.GetCurrentOffset s >
          ((W.GetPageSize s).2 - (W.GetPageMargins s).2.1 - (W.GetPageMargins s).2.2.2)
            - contentHeight - 1 - 7)) ∧
      (k < contents.length → RowReached W pkg (validProp pkg header defaultFontFamily prop)
        (createMaxGridSum pkg header prop) contents r0 k
        (fun contentHeight s => W.GetCurrentOffset s >
          ((W.GetPageSize s).2 - (W.GetPageMargins s).2.1 - (W.GetPageMargins s).2.2.2)
            - contentHeight - 1 - 7)) ∧
      rowTexts r'.log = rowTexts r.log ++ header :: [] :: contents.take k := by
  have hc' : contents ≠ [] := by
    intro h
    rw [h] at hc
    simp at hc
  obtain ⟨r0, k, r', e0, e, hk, hfit, hover, hlog⟩ :=
    create_spec W pkg header contents defaultFontFamily prop r hh hc' hshape
  refine ⟨r0, k, r', e0, e, hk, ?_, ?_, hlog⟩
  · intro j hj
    exact RowReached_mono W pkg _ _ contents r0 j _ _
      (fun ch s h => by rw [← overflows_iff]; exact h) (hfit j hj)
  · intro hlt
    exact RowReached_mono W pkg _ _ contents r0 k _ _
      (fun ch s h => (overflows_iff W ch s).mp h) (hover hlt)

theorem wellShaped_oneColumn (pad : ℚ) (h : Str) (contents : List (List Str))
    (hc : ∀ row ∈ contents, row.length ≤ 1) :
    WellShaped simplePkg [h] contents [] [oneColumnStyle pad] := by
  refine ⟨by simp [validProp, simplePkg, oneColumnStyle],
    by simp [validProp, simplePkg, oneColumnStyle], ?_⟩
  intro row hr
  have := hc row hr
  simpa [validProp, simplePkg, oneColumnStyle] using this

theorem create_returns_first_overflow_witness :
    ∃ r0 k r', createHeader (pageWorld 50) simplePkg [['h']]
        (validProp simplePkg [['h']] [] [oneColumnStyle 0])
        (createMaxGridSum simplePkg [['h']] [oneColumnStyle 0]) ⟨0, []⟩ = some r0 ∧
      Create (pageWorld 50) simplePkg [['h']] [[['a']], [['b']], [['c']]] []
        [oneColumnStyle 0] ⟨0, []⟩ = some (k, r') ∧
      k ≤ [[['a']], [['b']], [['c']]].length ∧
      (∀ j, j < k → RowReached (pageWorld 50) simplePkg
        (validProp simplePkg [['h']] [] [oneColumnStyle 0])
        (createMaxGridSum simplePkg [['h']] [oneColumnStyle 0]) [[['a']], [['b']], [['c']]] r0 j
        (fun contentHeight s => ¬ (pageWorld 50).GetCurrentOffset s >
          (((pageWorld 50).GetPageSize s).2 - ((pageWorld 50).GetPageMargins s).2.1 -
            ((pageWorld 50).GetPageMargins s).2.2.2) - contentHeight - 1 - 7)) ∧
      (k < [[['a']], [['b']], [['c']]].length → RowReached (pageWorld 50) simplePkg
        (validProp simplePkg [['h']] [] [oneColumnStyle 0])
        (createMaxGridSum simplePkg [['h']] [oneColumnStyle 0]) [[['a']], [['b']], [['c']]] r0 k
        (fun contentHeight s => (pageWorld 50).GetCurrentOffset s >
          (((pageWorld 50).GetPageSize s).2 - ((pageWorld 50).GetPageMargins s).2.1 -
            ((pageWorld 50).GetPageMargins s).2.2.2) - contentHeight - 1 - 7)) ∧
      rowTexts r'.log = rowTexts ([] : List Call) ++
        [['h']] :: [] :: [[['a']], [['b']], [['c']]].take k :=
  create_returns_first_overflow (pageWorld 50) simplePkg [['h']] [[['a']], [['b']], [['c']]] []
    [oneColumnStyle 0] ⟨0, []⟩ (by simp) (by simp)
    (wellShaped_oneColumn 0 ['h'] _ (by simp))

set_option maxRecDepth 4000 in
/-- On a page of height 50 with margins of 10, rows of content height 4 and no padding,
starting at offset 0, `Create` places 2 of 3 content rows and ends at offset 19. -/
theorem create_truncates_example :
    (Create (pageWorld 50) simplePkg [['h']] [[['a']], [['b']], [['c']]] []
      [oneColumnStyle 0] ⟨0, []⟩).map (fun x => (x.1, x.2.st, rowTexts x.2.log)) =
      some (2, 19, [[['h']], [], [['a']], [['b']]]) := by
  norm_num [Create, createHeader, createLoop, rowProbe, rowEmit, rowClosure, calcLinesHeight,
    calcLinesLoop, customizeMaxGridSum, createMaxGridSum, validProp, simplePkg, pageWorld,
    oneColumnStyle, overflows, maxOffsetPage, Run.call, Run.read, setAlternatedBackground,
    resetBackground, drawSeparatorLine, lineHeight, rowTexts, Call.rowCells, ColCall.texts]
  rfl

/-- On `pageWorld` with a one-column style, the header part advances the offset by 9. -/
theorem createHeader_pageWorld (ph pad mgs : ℚ) (h : Str) (r r0 : Run ℚ)
    (e : createHeader (pageWorld ph) simplePkg [h] (oneColumnStyle pad) mgs r = some r0) :
    r0.st = r.st + 9 := by
  norm_num [createHeader, calcLinesHeight, calcLinesLoop, rowClosure, oneColumnStyle,
    customizeMaxGridSum, simplePkg, pageWorld, Run.call, Run.read] at e
  rw [← e]
  norm_num
  ring

/-- On `pageWorld` with a one-column style, a row measures 4 and the probe leaves the
offset as it is. -/
theorem rowProbe_pageWorld (ph pad : ℚ) (j : Nat) (c : Str) (r r1 : Run ℚ) (ch : ℚ)
    (lh : List ℚ) (e : rowProbe (pageWorld ph) simplePkg (oneColumnStyle pad) j [c] r =
      some (ch, lh, r1)) : ch = 4 ∧ r1.st = r.st := by
  norm_num [rowProbe, calcLinesHeight, calcLinesLoop, oneColumnStyle, customizeMaxGridSum,
    simplePkg, pageWorld, Run.call, Run.read, setAlternatedBackground] at e
  obtain ⟨e1, -, e3⟩ := e
  exact ⟨e1.symm, by rw [← e3]⟩

set_option maxRecDepth 4000 in
/-- C4 (defect): page height 100 with margins of 10, a one-column table whose rows
measure 4, vertical content padding 10, current offset 59 before the header. Content
row 0 is reached at offset 68, which the overflow test, made with the unpadded content
height, accepts (68 is not greater than 80 - 4 - 1 - 7 = 68); `Create` emits the row with
`Row(contentHeightPadded + 1)`, a row of height 15, and returns 1: the `Row` calls have the
heights 5, 4 and 15, the offset after the call is 83, and 68 + (4 + 10 + 1) = 83 exceeds
100 - 10 - 10 = 80. -/
theorem create_emits_row_past_page :
    0 ≤ (validProp simplePkg [['h']] [] [oneColumnStyle 10]).VerticalContentPadding ∧
    ∃ r0 r', createHeader (pageWorld 100) simplePkg [['h']]
        (validProp simplePkg [['h']] [] [oneColumnStyle 10])
        (createMaxGridSum simplePkg [['h']] [oneColumnStyle 10]) ⟨59, []⟩ = some r0 ∧
      Create (pageWorld 100) simplePkg [['h']] [[['c']]] [] [oneColumnStyle 10] ⟨59, []⟩ =
        some (1, r') ∧
      rowTexts r'.log = [[['h']], [], [['c']]] ∧
      rowHeights r'.log = [5, 4, 15] ∧ r'.st = 83 ∧
      RowReached (pageWorld 100) simplePkg (validProp simplePkg [['h']] [] [oneColumnStyle 10])
        (createMaxGridSum simplePkg [['h']] [oneColumnStyle 10]) [[['c']]] r0 0
        (fun contentHeight s => ¬ ((pageWorld 100).GetCurrentOffset s +
            (contentHeight +
              (validProp simplePkg [['h']] [] [oneColumnStyle 10]).VerticalContentPadding + 1) ≤
          ((pageWorld 100).GetPageSize s).2 - ((pageWorld 100).GetPageMargins s).2.1 -
            ((pageWorld 100).GetPageMargins s).2.2.2)) := by
  refine ⟨by norm_num [validProp, simplePkg, oneColumnStyle], ?_⟩
  obtain ⟨r0, k, r', e0, e, hk, hfit, hover, hlog⟩ := create_spec (pageWorld 100) simplePkg
    [['h']] [[['c']]] [] [oneColumnStyle 10] ⟨59, []⟩ (by simp) (by simp)
    (wellShaped_oneColumn 10 ['h'] _ (by simp))
  have hst : r0.st = 68 := by
    have := createHeader_pageWorld 100 10 _ ['h'] ⟨59, []⟩ r0 e0
    rw [this]
    norm_num
  have hk1 : k = 1 := by
    by_contra hne
    have hk0 : k = 0 := by
      simp only [List.length_singleton] at hk
      omega
    subst hk0
    obtain ⟨r, content, ch, lh, r1, h1, h2, h3, h4⟩ := hover (by simp)
    simp only [rowStart, Option.some.injEq] at h1
    simp only [List.getElem?_cons_zero, Option.some.injEq] at h2
    subst h1 h2
    obtain ⟨hch, hr1⟩ := rowProbe_pageWorld 100 10 0 ['c'] _ r1 ch lh h3
    rw [overflows, maxOffsetPage, hch] at h4
    simp only [pageWorld] at h4
    rw [hr1, hst] at h4
    norm_num at h4
  subst hk1
  have heval : (Create (pageWorld 100) simplePkg [['h']] [[['c']]] [] [oneColumnStyle 10]
      ⟨59, []⟩).map (fun x => (rowHeights x.2.log, x.2.st)) = some ([5, 4, 15], 83) := by
    norm_num [Create, createHeader, createLoop, rowProbe, rowEmit, rowClosure,
      calcLinesHeight, calcLinesLoop, customizeMaxGridSum, createMaxGridSum, validProp,
      simplePkg, pageWorld, oneColumnStyle, overflows, maxOffsetPage, Run.call, Run.read,
      setAlternatedBackground, resetBackground, drawSeparatorLine, lineHeight, rowHeights,
      Call.rowHeight]
    rfl
  rw [e] at heval
  simp only [Option.map_some', Option.some.injEq, Prod.mk.injEq] at heval
  refine ⟨r0, r', e0, e, by simpa [rowTexts] using hlog, heval.1, heval.2, ?_⟩
  obtain ⟨r, content, ch, lh, r1, h1, h2, h3, -⟩ := hfit 0 (by norm_num)
  refine ⟨r, content, ch, lh, r1, h1, h2, h3, ?_⟩
  simp only [rowStart, Option.some.injEq] at h1
  simp only [List.getElem?_cons_zero, Option.some.injEq] at h2
  subst h1 h2
  obtain ⟨hch, hr1⟩ := rowProbe_pageWorld 100 10 0 ['c'] _ r1 ch lh h3
  rw [hch]
  simp only [pageWorld]
  rw [hr1, hst]
  norm_num [validProp, simplePkg, oneColumnStyle]

/-- Where the fixed slack of the overflow test of the code as it is covers the padding:
for every table style whose vertical content padding (after `MakeValid`) is at most 7, on
a well-shaped table with a non-empty header and at least one content row, `Create`
returns, and every content row it emits is reached in a state in which the current offset
plus `contentHeight + VerticalContentPadding + 1` is at most
`pageHeight - topMargin - bottomMargin`. -/
theorem create_emitted_row_fits_page {σ : Type} (W : World σ) (pkg : Pkg)
    (header : List Str) (contents : List (List Str)) (defaultFontFamily : Str)
    (prop : List TableList) (r : Run σ) (hh : header ≠ []) (hc : 1 ≤ contents.length)
    (hshape : WellShaped pkg header contents defaultFontFamily prop)
    (hpad : (validProp pkg header defaultFontFamily prop).VerticalContentPadding ≤ 7) :
    ∃ r0 k r', createHeader W pkg header (validProp pkg header defaultFontFamily prop)
        (createMaxGridSum pkg header prop) r = some r0 ∧
      Create W pkg header contents defaultFontFamily prop r = some (k, r') ∧
      rowTexts r'.log = rowTexts r.log ++ header :: [] :: contents.take k ∧
      ∀ j, j < k → RowReached W pkg (validProp pkg header defaultFontFamily prop)
        (createMaxGridSum pkg header prop) contents r0 j
        (fun contentHeight s => W.GetCurrentOffset s +
            (contentHeight +
              (validProp pkg header defaultFontFamily prop).VerticalContentPadding + 1) ≤
          (W.GetPageSize s).2 - (W.GetPageMargins s).2.1 - (W.GetPageMargins s).2.2.2) := by
  have hc' : contents ≠ [] := by
    intro h
    rw [h] at hc
    simp at hc
  obtain ⟨r0, k, r', e0, e, -, hfit, -, hlog⟩ :=
    create_spec W pkg header contents defaultFontFamily prop r hh hc' hshape
  refine ⟨r0, k, r', e0, e, hlog, ?_⟩
  intro j hj
  refine RowReached_mono W pkg _ _ contents r0 j _ _ ?_ (hfit j hj)
  intro ch s hno
  rw [overflows_iff] at hno
  have := not_lt.mp hno
  linarith

theorem create_emitted_row_fits_page_witness :
    ∃ r0 k r', createHeader (pageWorld 50) simplePkg [['h']]
        (validProp simplePkg [['h']] [] [oneColumnStyle 7])
        (createMaxGridSum simplePkg [['h']] [oneColumnStyle 7]) ⟨0, []⟩ = some r0 ∧
      Create (pageWorld 50) simplePkg [['h']] [[['a']], [['b']]] []
        [oneColumnStyle 7] ⟨0, []⟩ = some (k, r') ∧
      rowTexts r'.log = rowTexts ([] : List Call) ++
        [['h']] :: [] :: [[['a']], [['b']]].take k ∧
      ∀ j, j < k → RowReached (pageWorld 50) simplePkg
        (validProp simplePkg [['h']] [] [oneColumnStyle 7])
        (createMaxGridSum simplePkg [['h']] [oneColumnStyle 7]) [[['a']], [['b']]] r0 j
        (fun contentHeight s => (pageWorld 50).GetCurrentOffset s +
            (contentHeight +
              (validProp simplePkg [['h']] [] [oneColumnStyle 7]).VerticalContentPadding + 1) ≤
          ((pageWorld 50).GetPageSize s).2 - ((pageWorld 50).GetPageMargins s).2.1 -
            ((pageWorld 50).GetPageMargins s).2.2.2) :=
  create_emitted_row_fits_page (pageWorld 50) simplePkg [['h']] [[['a']], [['b']]] []
    [oneColumnStyle 7] ⟨0, []⟩ (by simp) (by simp)
    (wellShaped_oneColumn 7 ['h'] _ (by simp))
    (by norm_num [validProp, simplePkg, oneColumnStyle])

/-! ## Second part: short text, reflow, measuring, grid total, background -/

theorem additive_mem_le (pdf : Fpdf) (ha : Additive pdf) (hn : NonNeg pdf) (t : Str)
    (c : Char) (hc : c ∈ t) : pdf.GetStringWidth [c] ≤ pdf.GetStringWidth t := by
  obtain ⟨p, q, rfl⟩ := List.append_of_mem hc
  have := additive_infix_le pdf ha hn p [c] q
  simpa using this

/-- Under an additive, non-negative metric `splitText` returns on a text that is not
wider than the width. -/
theorem splitText_some_of_fits (pdf : Fpdf) (ha : Additive pdf) (hn : NonNeg pdf) (w : ℚ)
    (t : Str) (h : pdf.GetStringWidth t ≤ w) : ∃ toks, splitText pdf w t = some toks := by
  cases herr : pdf.Err with
  | true => exact ⟨[t], splitText_of_err pdf w t herr⟩
  | false =>
    rw [splitText_of_not_err pdf w t herr]
    by_cases hne : t = []
    · subst hne
      exact ⟨[[]], by simp [splitTextLoop, getLineMaxStr_nil]⟩
    · obtain ⟨toks, e, -⟩ := splitTextLoop_tokens pdf w (t.length + 1) t hne
        (fun c hc => le_trans (additive_mem_le pdf ha hn t c hc) h) (by omega)
      exact ⟨toks, e⟩

/-- Under an additive, non-negative width metric a text whose rendered (encoded) width is
strictly less than the available width is left alone: `Add` draws exactly one line, the
encoded input text unchanged, and `GetLinesQuantity` returns 1. -/
theorem short_text_one_line (pdf : Fpdf) (font : Font) (text : Str) (cell : Cell)
    (textProp : TextProp) (ha : Additive pdf) (hn : NonNeg pdf)
    (hshort : pdf.GetStringWidth (textToUnicode pdf text textProp) < cell.Width) :
    drawnLines (Add pdf font text cell textProp) = some [textToUnicode pdf text textProp] ∧
    GetLinesQuantity pdf text textProp cell.Width = some 1 := by
  obtain ⟨toks, hs⟩ := splitText_some_of_fits pdf ha hn cell.Width
    (textToUnicode pdf text textProp) (le_of_lt hshort)
  constructor
  · rw [Add_of_split pdf font text cell textProp toks hs, if_pos (Or.inl hshort)]
  · rw [GetLinesQuantity_of_split pdf text textProp cell.Width toks hs,
      if_pos (Or.inl hshort)]

theorem short_text_one_line_witness :
    drawnLines (Add unitPdf unitFont ['a', 'b'] ⟨0, 0, 3, 0⟩ plainProp) =
      some [textToUnicode unitPdf ['a', 'b'] plainProp] ∧
    GetLinesQuantity unitPdf ['a', 'b'] plainProp 3 = some 1 :=
  short_text_one_line unitPdf unitFont ['a', 'b'] ⟨0, 0, 3, 0⟩ plainProp additive_unitPdf
    nonNeg_unitPdf (by rw [textToUnicode_plainProp]; norm_num [unitPdf])

/-- The lines of the loop of `getLines`, concatenated: the lines so far, then every word
followed by one separator. -/
theorem getLines_foldl_flatten (pdf : Fpdf) (w : ℚ) (words : List Str) (pre : List Str)
    (cur : Str) (size : ℚ) :
    (words.foldl (getLinesStep pdf w) ⟨pre ++ [cur], size, pre.length⟩).lines.flatten =
      (pre ++ [cur]).flatten ++ (words.map (fun word => word ++ [' '])).flatten := by
  induction words generalizing pre cur size with
  | nil => simp
  | cons x rest ih =>
    simp only [List.foldl_cons]
    rw [getLinesStep_last]
    split
    · rw [ih]
      simp
    · rw [ih (pre ++ [cur])]
      simp

/-- C18: for every token list and every width, the lines returned by `getLines`,
concatenated in order, are the tokens in order, each followed by exactly one space. -/
theorem getLines_preserves_tokens (pdf : Fpdf) (words : List Str) (colWidth : ℚ) :
    (getLines pdf words colWidth).flatten =
      (words.map (fun word => word ++ [' '])).flatten := by
  have h := getLines_foldl_flatten pdf colWidth words [] [] 0
  simpa [getLines] using h

/-- C16 (defect): with one unit per character the single token "aaa" at width 3 does not
fit with its separator (4 + 0 < 3 fails), so `getLines` leaves the initial line empty and
opens a second one: it returns the two lines "" and "aaa ", more lines than tokens, the
first of them empty. -/
theorem getLines_single_token_two_lines :
    getLines unitPdf [['a', 'a', 'a']] 3 = [[], ['a', 'a', 'a', ' ']] ∧
    [] ∈ getLines unitPdf [['a', 'a', 'a']] 3 ∧
    [['a', 'a', 'a']].length < (getLines unitPdf [['a', 'a', 'a']] 3).length := by
  have h : getLines unitPdf [['a', 'a', 'a']] 3 = [[], ['a', 'a', 'a', ' ']] := by
    norm_num [getLines, getLinesStep, unitPdf]
  rw [h]
  simp

/-- C17 (defect): with one unit per character the text "aaa" at width 3 (extrapolate
unset) is as wide as the column: it is one token, `GetLinesQuantity` returns 1, and `Add`
draws the two lines "" and "aaa ". -/
theorem counter_disagrees_with_wrapper :
    GetLinesQuantity unitPdf ['a', 'a', 'a'] plainProp 3 = some 1 ∧
    drawnLines (Add unitPdf unitFont ['a', 'a', 'a'] ⟨0, 0, 3, 0⟩ plainProp) =
      some [[], ['a', 'a', 'a', ' ']] := by
  have hs : splitText unitPdf (3 : ℚ) (textToUnicode unitPdf ['a', 'a', 'a'] plainProp) =
      some [['a', 'a', 'a']] := by
    rw [textToUnicode_plainProp]
    norm_num [splitText, splitTextFuel, splitTextLoop, getLineMaxStr, getLineMaxStrLoop,
      unitPdf]
  constructor
  · rw [GetLinesQuantity_of_split _ _ _ _ _ hs]
    simp
  · rw [Add_of_split unitPdf unitFont _ ⟨0, 0, 3, 0⟩ plainProp _ hs, textToUnicode_plainProp]
    norm_num [getLines, getLinesStep, plainProp, unitPdf]

/-- C13: if the header is empty or the content list is empty, `Create` returns 0 and
makes no call at all: the state of the collaborators and the call log are unchanged. -/
theorem create_noop_on_degenerate {σ : Type} (W : World σ) (pkg : Pkg) (header : List Str)
    (contents : List (List Str)) (defaultFontFamily : Str) (prop : List TableList)
    (r : Run σ) (h : header = [] ∨ contents = []) :
    Create W pkg header contents defaultFontFamily prop r = some (0, r) := by
  rcases h with h | h
  · subst h
    simp [Create]
  · subst h
    simp [Create]

theorem create_noop_on_degenerate_witness :
    Create (pageWorld 100) simplePkg [] [[['a']]] [] [oneColumnStyle 0] ⟨0, []⟩ =
      some (0, ⟨0, []⟩) :=
  create_noop_on_degenerate (pageWorld 100) simplePkg [] [[['a']]] [] [oneColumnStyle 0]
    ⟨0, []⟩ (Or.inl rfl)

theorem ite_gt_eq_max (q m : ℚ) : (if q > m then q else m) = max m q := by
  split
  · next h => exact (max_eq_right (le_of_lt h)).symm
  · next h => exact (max_eq_left (not_lt.mp h)).symm

theorem lineCounts_length {σ : Type} (W : World σ) (contentProp : TableListContent)
    (textProp : TextProp) (uw mgs : ℚ) (textList : List Str) (i : Nat) (s : σ) :
    (lineCounts W contentProp textProp uw mgs i textList s).length = textList.length := by
  induction textList generalizing i s with
  | nil => rfl
  | cons t rest ih => simp [lineCounts, ih]

/-- The measuring loop of `calcLinesHeight` computes the running maximum of the line
counts and appends the line counts in cell order. -/
theorem calcLinesLoop_counts {σ : Type} (W : World σ) (contentProp : TableListContent)
    (textProp : TextProp) (uw mgs : ℚ) (textList : List Str) (i : Nat) (maxLines : ℚ)
    (lh : List ℚ) (r : Run σ) (m : ℚ) (l : List ℚ) (r3 : Run σ)
    (h : calcLinesLoop W contentProp textProp uw mgs i textList maxLines lh r =
      some (m, l, r3)) :
    m = ((lineCounts W contentProp textProp uw mgs i textList r.st).map
        (fun q : Int => (q : ℚ))).foldl max maxLines ∧
    l = lh ++ (lineCounts W contentProp textProp uw mgs i textList r.st).map
        (fun q : Int => (q : ℚ)) := by
  induction textList generalizing i maxLines lh r with
  | nil =>
    simp only [calcLinesLoop, Option.some.injEq, Prod.mk.injEq] at h
    simp [lineCounts, h.1, h.2.1]
  | cons t rest ih =>
    cases hg : contentProp.GridSizes[i]? with
    | none => simp [calcLinesLoop, hg] at h
    | some size =>
      have hd : contentProp.GridSizes.getD i 0 = size := by
        simp [List.getD_eq_getElem?_getD, hg]
      simp only [calcLinesLoop, hg] at h
      obtain ⟨h1, h2⟩ := ih _ _ _ _ h
      simp only [lineCounts, hd, List.map_cons, List.foldl_cons]
      rw [ite_gt_eq_max] at h1
      refine ⟨h1, ?_⟩
      rw [h2]
      simp

theorem le_foldl_max (L : List ℚ) (init : ℚ) : init ≤ L.foldl max init := by
  induction L generalizing init with
  | nil => simp
  | cons a rest ih =>
    simp only [List.foldl_cons]
    exact le_trans (le_max_left init a) (ih _)

theorem mem_le_foldl_max (L : List ℚ) (init x : ℚ) (hx : x ∈ L) : x ≤ L.foldl max init := by
  induction L generalizing init with
  | nil => simp at hx
  | cons a rest ih =>
    simp only [List.foldl_cons]
    rcases List.mem_cons.mp hx with rfl | h
    · exact le_trans (le_max_right init x) (le_foldl_max rest _)
    · exact ih _ h

/-- C20: for every row and every font whose line height `h` (font size over scale
factor) is not negative: `calcLinesHeight` returns when the column units cover the cells
of the row, and whenever it returns, it returns the row height
`h * max(1, line counts of the cells)` together with the per-cell heights
`h * lineCount_i` in cell order, one per cell; so every per-cell height is at most the row
height and every centering offset `(rowHeight - cellHeight_i) / 2` is at least 0. -/
theorem calcLinesHeight_tallest_cell {σ : Type} (W : World σ) (pkg : Pkg)
    (textList : List Str) (contentProp : TableListContent) (align : Align) (r : Run σ)
    (hh : ∀ s, 0 ≤ (W.GetFont s).2.2 / W.GetScaleFactor s) :
    (textList.length ≤ contentProp.GridSizes.length →
      ∃ res, calcLinesHeight W pkg textList contentProp align r = some res) ∧
    ∀ rowHeight cellHeights r1,
      calcLinesHeight W pkg textList contentProp align r = some (rowHeight, cellHeights, r1) →
      rowHeight = (W.GetFont r1.st).2.2 / W.GetScaleFactor r1.st *
        ((lineCounts W contentProp (pkg.ToTextProp contentProp align 0 false 0)
          ((W.GetPageSize r.st).1 - (W.GetPageMargins r.st).1 - (W.GetPageMargins r.st).2.2.1)
          (customizeMaxGridSum pkg contentProp) 0 textList r.st).map
            (fun q : Int => (q : ℚ))).foldl max 1 ∧
      cellHeights = (lineCounts W contentProp (pkg.ToTextProp contentProp align 0 false 0)
          ((W.GetPageSize r.st).1 - (W.GetPageMargins r.st).1 - (W.GetPageMargins r.st).2.2.1)
          (customizeMaxGridSum pkg contentProp) 0 textList r.st).map
            (fun q : Int => (W.GetFont r1.st).2.2 / W.GetScaleFactor r1.st * (q : ℚ)) ∧
      cellHeights.length = textList.length ∧
      ∀ c ∈ cellHeights, c ≤ rowHeight ∧ 0 ≤ (rowHeight - c) / 2 := by
  constructor
  · intro hlen
    obtain ⟨h, lh, r1, -, e, -⟩ := calcLinesHeight_ok W pkg textList contentProp align r hlen
    exact ⟨_, e⟩
  intro rowHeight cellHeights r1 hret
  cases e : calcLinesLoop W contentProp (pkg.ToTextProp contentProp align 0 false 0)
      ((W.GetPageSize r.st).1 - (W.GetPageMargins r.st).1 - (W.GetPageMargins r.st).2.2.1)
      (customizeMaxGridSum pkg contentProp) 0 textList 1 []
      ((r.read Call.GetPageMargins).read Call.GetPageSize) with
  | none => simp [calcLinesHeight, e] at hret
  | some res =>
    obtain ⟨m1, l1, r3⟩ := res
    rw [calcLinesHeight_of_loop W pkg textList contentProp align r m1 l1 r3 e] at hret
    simp only [Option.some.injEq, Prod.mk.injEq] at hret
    obtain ⟨hrow, hcell, hrun⟩ := hret
    have hr1 : r1.st = r3.st := by rw [← hrun]; rfl
    obtain ⟨hm, hl⟩ := calcLinesLoop_counts W contentProp _ _ _ textList 0 1 [] _ m1 l1 r3 e
    have hst : ((r.read Call.GetPageMargins).read Call.GetPageSize).st = r.st := rfl
    rw [hst] at hm hl
    simp only [List.nil_append] at hl
    have hcells : cellHeights =
        (lineCounts W contentProp (pkg.ToTextProp contentProp align 0 false 0)
          ((W.GetPageSize r.st).1 - (W.GetPageMargins r.st).1 - (W.GetPageMargins r.st).2.2.1)
          (customizeMaxGridSum pkg contentProp) 0 textList r.st).map
            (fun q : Int => (W.GetFont r1.st).2.2 / W.GetScaleFactor r1.st * (q : ℚ)) := by
      rw [← hcell, hl, List.map_map, hr1]
      rfl
    refine ⟨by rw [← hrow, hm, hr1], hcells, ?_, ?_⟩
    · rw [hcells, List.length_map, lineCounts_length]
    · intro c hc
      rw [← hcell] at hc
      simp only [List.mem_map] at hc
      obtain ⟨f, hf, rfl⟩ := hc
      have hle : f ≤ m1 := by
        rw [hm]
        apply mem_le_foldl_max
        rw [← hl]
        exact hf
      have h0 := hh r3.st
      have hmul : (W.GetFont r3.st).2.2 / W.GetScaleFactor r3.st * f ≤
          (W.GetFont r3.st).2.2 / W.GetScaleFactor r3.st * m1 :=
        mul_le_mul_of_nonneg_left hle h0
      rw [← hrow]
      exact ⟨hmul, by linarith⟩

theorem calcLinesHeight_tallest_cell_witness :
    ∃ res, calcLinesHeight (pageWorld 100) simplePkg [['a'], ['b']]
      twoColumnStyle.ContentProp Align.Left ⟨0, []⟩ = some res :=
  (calcLinesHeight_tallest_cell (pageWorld 100) simplePkg [['a'], ['b']]
    twoColumnStyle.ContentProp Align.Left ⟨0, []⟩
    (by intro s; norm_num [pageWorld])).1 (by simp [twoColumnStyle])

set_option maxRecDepth 4000 in
/-- A row of two cells on `pageWorld`: each cell measures one line, the font line height
is 4, so the row height is 4 and the cell heights are 4 and 4. -/
theorem calcLinesHeight_example :
    (calcLinesHeight (pageWorld 100) simplePkg [['a'], ['b']] twoColumnStyle.ContentProp
      Align.Left ⟨0, []⟩).map (fun x => (x.1, x.2.1)) = some (4, [4, 4]) := by
  norm_num [calcLinesHeight, calcLinesLoop, customizeMaxGridSum, simplePkg, pageWorld,
    twoColumnStyle, Run.read]

/-- C12: for every non-empty header and every list of `N ≥ 1` content rows of a
well-shaped table, if the overflow test fires on no content row that is reached (the page
is tall enough), `Create` returns `N`, and its `Row` calls are, in order, the header row,
the spacer row and one row per content row in input order: `N + 2` calls. -/
theorem create_places_all_rows {σ : Type} (W : World σ) (pkg : Pkg) (header : List Str)
    (contents : List (List Str)) (defaultFontFamily : Str) (prop : List TableList)
    (r : Run σ) (hh : header ≠ []) (hc : 1 ≤ contents.length)
    (hshape : WellShaped pkg header contents defaultFontFamily prop)
    (htall : ∀ r0 j, createHeader W pkg header (validProp pkg header defaultFontFamily prop)
        (createMaxGridSum pkg header prop) r = some r0 →
      ¬ RowReached W pkg (validProp pkg header defaultFontFamily prop)
        (createMaxGridSum pkg header prop) contents r0 j
        (fun contentHeight s => W.GetCurrentOffset s >
          ((W.GetPageSize s).2 - (W.GetPageMargins s).2.1 - (W.GetPageMargins s).2.2.2)
            - contentHeight - 1 - 7)) :
    ∃ r', Create W pkg header contents defaultFontFamily prop r =
        some (contents.length, r') ∧
      rowTexts r'.log = rowTexts r.log ++ header :: [] :: contents ∧
      (rowTexts r'.log).length = (rowTexts r.log).length + (contents.length + 2) := by
  have hc' : contents ≠ [] := by
    intro h
    rw [h] at hc
    simp at hc
  obtain ⟨r0, k, r', e0, e, hk, -, hover, hlog⟩ :=
    create_spec W pkg header contents defaultFontFamily prop r hh hc' hshape
  have hkN : k = contents.length := by
    by_contra hne
    have hlt : k < contents.length := by omega
    exact htall r0 k e0 (RowReached_mono W pkg _ _ contents r0 k _ _
      (fun ch s h => (overflows_iff W ch s).mp h) (hover hlt))
  subst hkN
  rw [List.take_length] at hlog
  refine ⟨r', e, hlog, ?_⟩
  rw [hlog]
  simp

/-- On `pageWorld` with the two-column style, the header part advances the offset by 9. -/
theorem createHeader_pageWorld_two (ph mgs : ℚ) (h1 h2 : Str) (r r0 : Run ℚ)
    (e : createHeader (pageWorld ph) simplePkg [h1, h2] twoColumnStyle mgs r = some r0) :
    r0.st = r.st + 9 := by
  norm_num [createHeader, calcLinesHeight, calcLinesLoop, rowClosure, twoColumnStyle,
    customizeMaxGridSum, simplePkg, pageWorld, Run.call, Run.read] at e
  rw [← e]
  norm_num
  ring

/-- On `pageWorld` with the two-column style, a row of two cells measures 4 and the probe
leaves the offset as it is. -/
theorem rowProbe_pageWorld_two (ph : ℚ) (j : Nat) (c1 c2 : Str) (r r1 : Run ℚ) (ch : ℚ)
    (lh : List ℚ) (e : rowProbe (pageWorld ph) simplePkg twoColumnStyle j [c1, c2] r =
      some (ch, lh, r1)) : ch = 4 ∧ r1.st = r.st := by
  norm_num [rowProbe, calcLinesHeight, calcLinesLoop, twoColumnStyle, customizeMaxGridSum,
    simplePkg, pageWorld, Run.call, Run.read, setAlternatedBackground] at e
  obtain ⟨e1, -, e3⟩ := e
  exact ⟨e1.symm, by rw [← e3]⟩

theorem create_places_all_rows_witness :
    ∃ r', Create (pageWorld 1000) simplePkg [['N', 'a', 'm', 'e'], ['A', 'g', 'e']]
        [[['A', 'l', 'i', 'c', 'e'], ['3', '0']]] [] [twoColumnStyle] ⟨0, []⟩ =
        some ([[['A', 'l', 'i', 'c', 'e'], ['3', '0']]].length, r') ∧
      rowTexts r'.log = rowTexts ([] : List Call) ++
        [['N', 'a', 'm', 'e'], ['A', 'g', 'e']] :: [] ::
          [[['A', 'l', 'i', 'c', 'e'], ['3', '0']]] ∧
      (rowTexts r'.log).length = (rowTexts ([] : List Call)).length +
        ([[['A', 'l', 'i', 'c', 'e'], ['3', '0']]].length + 2) :=
  create_places_all_rows (pageWorld 1000) simplePkg [['N', 'a', 'm', 'e'], ['A', 'g', 'e']]
    [[['A', 'l', 'i', 'c', 'e'], ['3', '0']]] [] [twoColumnStyle] ⟨0, []⟩ (by simp) (by simp)
    ⟨by simp [validProp, simplePkg, twoColumnStyle],
      by simp [validProp, simplePkg, twoColumnStyle],
      by simp [validProp, simplePkg, twoColumnStyle]⟩
    (by
      intro r0 j e0 hreach
      obtain ⟨r, content, ch, lh, r1, h1, h2, h3, h4⟩ := hreach
      have hst := createHeader_pageWorld_two 1000 _ _ _ ⟨0, []⟩ r0 e0
      cases j with
      | zero =>
        simp only [rowStart, Option.some.injEq] at h1
        simp only [List.getElem?_cons_zero, Option.some.injEq] at h2
        subst h1 h2
        obtain ⟨hch, hr1⟩ := rowProbe_pageWorld_two 1000 0 _ _ _ r1 ch lh h3
        rw [hch] at h4
        simp only [pageWorld] at h4
        rw [hr1, hst] at h4
        norm_num at h4
      | succ n => simp at h2)

/-! ### The grid total passed to `ColWithMaxGridSum` -/

theorem gridTotals_append (a b : List Call) :
    gridTotals (a ++ b) = gridTotals a ++ gridTotals b := by
  simp [gridTotals]

theorem gridTotals_snoc_row (l : List Call) (h : ℚ) (cols : List ColCall) :
    gridTotals (l ++ [Call.Row h cols]) = gridTotals l ++ cols.filterMap ColCall.gridTotal := by
  simp [gridTotals, Call.gridTotals]

theorem gridTotals_snoc_other (l : List Call) (c : Call) (h : c.gridTotals = []) :
    gridTotals (l ++ [c]) = gridTotals l := by
  simp [gridTotals, h]

theorem calcLinesLoop_gridTotals {σ : Type} (W : World σ) (contentProp : TableListContent)
    (textProp : TextProp) (uw mgs : ℚ) (textList : List Str) (i : Nat) (maxLines : ℚ)
    (lh : List ℚ) (r : Run σ) (m : ℚ) (l : List ℚ) (r3 : Run σ)
    (h : calcLinesLoop W contentProp textProp uw mgs i textList maxLines lh r =
      some (m, l, r3)) : gridTotals r3.log = gridTotals r.log := by
  induction textList generalizing i maxLines lh r with
  | nil =>
    simp only [calcLinesLoop, Option.some.injEq, Prod.mk.injEq] at h
    rw [← h.2.2]
  | cons t rest ih =>
    cases hg : contentProp.GridSizes[i]? with
    | none => simp [calcLinesLoop, hg] at h
    | some size =>
      simp only [calcLinesLoop, hg] at h
      rw [ih _ _ _ _ h]
      exact gridTotals_snoc_other _ _ (by rfl)

theorem calcLinesHeight_gridTotals {σ : Type} (W : World σ) (pkg : Pkg) (textList : List Str)
    (contentProp : TableListContent) (align : Align) (r : Run σ) (h : ℚ) (lh : List ℚ)
    (r1 : Run σ) (e : calcLinesHeight W pkg textList contentProp align r = some (h, lh, r1)) :
    gridTotals r1.log = gridTotals r.log := by
  cases hloop : calcLinesLoop W contentProp (pkg.ToTextProp contentProp align 0 false 0)
      ((W.GetPageSize r.st).1 - (W.GetPageMargins r.st).1 - (W.GetPageMargins r.st).2.2.1)
      (customizeMaxGridSum pkg contentProp) 0 textList 1 []
      ((r.read Call.GetPageMargins).read Call.GetPageSize) with
  | none => simp [calcLinesHeight, hloop] at e
  | some res =>
    obtain ⟨m, l, r3⟩ := res
    rw [calcLinesHeight_of_loop W pkg textList contentProp align r m l r3 hloop] at e
    simp only [Option.some.injEq, Prod.mk.injEq] at e
    rw [← e.2.2]
    simp only [Run.read]
    rw [gridTotals_snoc_other _ _ (by rfl), gridTotals_snoc_other _ _ (by rfl),
      calcLinesLoop_gridTotals W contentProp _ _ _ textList 0 1 [] _ m l r3 hloop]
    simp only [Run.read]
    rw [gridTotals_snoc_other _ _ (by rfl), gridTotals_snoc_other _ _ (by rfl)]

theorem gridTotals_setAlternatedBackground {σ : Type} (W : World σ) (tableProp : TableList)
    (index : Nat) (r : Run σ) :
    gridTotals (setAlternatedBackground W tableProp index r).log = gridTotals r.log := by
  unfold setAlternatedBackground
  split
  · split
    · simp only [Run.call]
      rw [gridTotals_snoc_other _ _ (by rfl)]
    · rfl
  · rfl

theorem gridTotals_resetBackground {σ : Type} (W : World σ) (tableProp : TableList)
    (index : Nat) (r : Run σ) :
    gridTotals (resetBackground W tableProp index r).log = gridTotals r.log := by
  unfold resetBackground
  split
  · split
    · simp only [Run.call]
      rw [gridTotals_snoc_other _ _ (by rfl)]
    · rfl
  · rfl

theorem gridTotals_drawSeparatorLine {σ : Type} (W : World σ) (tableProp : TableList)
    (r : Run σ) : gridTotals (drawSeparatorLine W tableProp r).log = gridTotals r.log := by
  unfold drawSeparatorLine
  split
  · simp only [Run.call]
    rw [gridTotals_snoc_other _ _ (by rfl)]
  · rfl

theorem rowProbe_gridTotals {σ : Type} (W : World σ) (pkg : Pkg) (tableProp : TableList)
    (index : Nat) (content : List Str) (r : Run σ) (ch : ℚ) (lh : List ℚ) (r1 : Run σ)
    (e : rowProbe W pkg tableProp index content r = some (ch, lh, r1)) :
    gridTotals r1.log = gridTotals r.log := by
  cases hc : calcLinesHeight W pkg content tableProp.ContentProp tableProp.Align r with
  | none => simp [rowProbe, hc] at e
  | some res =>
    obtain ⟨h, l, r'⟩ := res
    simp only [rowProbe, hc, Option.some.injEq, Prod.mk.injEq] at e
    rw [← e.2.2]
    simp only [Run.read]
    rw [gridTotals_snoc_other _ _ (by rfl), gridTotals_snoc_other _ _ (by rfl),
      gridTotals_snoc_other _ _ (by rfl), gridTotals_setAlternatedBackground,
      calcLinesHeight_gridTotals W pkg content _ _ r h l r' hc]

/-- Every column call of a row closure is given the grid total the closure was built
with. -/
theorem rowClosure_gridTotals (pkg : Pkg) (contentProp : TableListContent)
    (aligns : List Align) (mgs rowHeight extraTop : ℚ) (lh : List ℚ) (cells : List Str)
    (i : Nat) (cols : List ColCall)
    (e : rowClosure pkg contentProp aligns mgs rowHeight extraTop lh i cells = some cols) :
    cols.filterMap ColCall.gridTotal = List.replicate cells.length mgs := by
  induction cells generalizing i cols with
  | nil =>
    simp only [rowClosure, Option.some.injEq] at e
    rw [← e]
    rfl
  | cons c rest ih =>
    cases h1 : lh[i]? with
    | none => simp [rowClosure, h1] at e
    | some x =>
      cases h2 : contentProp.GridSizes[i]? with
      | none => simp [rowClosure, h1, h2] at e
      | some size =>
        cases h3 : aligns[i]? with
        | none => simp [rowClosure, h1, h2, h3] at e
        | some al =>
          cases h4 : rowClosure pkg contentProp aligns mgs rowHeight extraTop lh (i + 1)
              rest with
          | none => simp [rowClosure, h1, h2, h3, h4] at e
          | some cols1 =>
            simp only [rowClosure, h1, h2, h3, h4, Option.some.injEq] at e
            rw [← e]
            simp [ColCall.gridTotal, ih _ _ h4, List.replicate_succ]

theorem rowEmit_gridTotals {σ : Type} (W : World σ) (pkg : Pkg) (tableProp : TableList)
    (mgs : ℚ) (index : Nat) (content : List Str) (ch : ℚ) (lh : List ℚ) (r r2 : Run σ)
    (e : rowEmit W pkg tableProp mgs index content ch lh r = some r2) :
    gridTotals r2.log = gridTotals r.log ++ List.replicate content.length mgs := by
  cases hc : rowClosure pkg tableProp.ContentProp tableProp.Aligns mgs ch
      (tableProp.VerticalContentPadding / 2) lh 0 content with
  | none => simp [rowEmit, hc] at e
  | some cols =>
    simp only [rowEmit, hc, Option.some.injEq] at e
    rw [← e, gridTotals_drawSeparatorLine, gridTotals_resetBackground]
    simp only [Run.call]
    rw [gridTotals_snoc_row, rowClosure_gridTotals pkg _ _ _ _ _ _ _ _ _ hc]

theorem createHeader_gridTotals {σ : Type} (W : World σ) (pkg : Pkg) (header : List Str)
    (tableProp : TableList) (mgs : ℚ) (r r0 : Run σ)
    (e : createHeader W pkg header tableProp mgs r = some r0) :
    gridTotals r0.log = gridTotals r.log ++ List.replicate header.length mgs := by
  cases hc : calcLinesHeight W pkg header tableProp.HeaderProp tableProp.Align r with
  | none => simp [createHeader, hc] at e
  | some res =>
    obtain ⟨h, l, r'⟩ := res
    cases hcl : rowClosure pkg tableProp.HeaderProp tableProp.Aligns mgs h 0 l 0 header with
    | none => simp [createHeader, hc, hcl] at e
    | some cols =>
      simp only [createHeader, hc, hcl, Option.some.injEq] at e
      rw [← e]
      simp only [Run.call]
      rw [gridTotals_snoc_row, gridTotals_snoc_row,
        rowClosure_gridTotals pkg _ _ _ _ _ _ _ _ _ hcl,
        calcLinesHeight_gridTotals W pkg header _ _ r h l r' hc]
      simp [ColCall.gridTotal]

theorem createLoop_gridTotals {σ : Type} (W : World σ) (pkg : Pkg) (tp : TableList) (mgs : ℚ)
    (rest : List (List Str)) :
    ∀ (index : Nat) (r : Run σ) (brk : Option Nat) (r' : Run σ),
      createLoop W pkg tp mgs index rest r = some (brk, r') →
      ∃ n, gridTotals r'.log = gridTotals r.log ++ List.replicate n mgs := by
  induction rest with
  | nil =>
    intro index r brk r' e
    simp only [createLoop, Option.some.injEq, Prod.mk.injEq] at e
    exact ⟨0, by rw [← e.2]; simp⟩
  | cons content rest ih =>
    intro index r brk r' e
    cases hp : rowProbe W pkg tp index content r with
    | none => simp [createLoop, hp] at e
    | some res =>
      obtain ⟨ch, lh, r1⟩ := res
      have hg1 := rowProbe_gridTotals W pkg tp index content r ch lh r1 hp
      by_cases hov : overflows W ch r1.st
      · simp only [createLoop, hp, if_pos hov, Option.some.injEq, Prod.mk.injEq] at e
        refine ⟨0, ?_⟩
        rw [← e.2]
        simp only [Run.call]
        rw [gridTotals_snoc_other _ _ (by rfl), hg1]
        simp
      · cases he : rowEmit W pkg tp mgs index content ch lh r1 with
        | none => simp [createLoop, hp, if_neg hov, he] at e
        | some r2 =>
          simp only [createLoop, hp, if_neg hov, he] at e
          obtain ⟨n, hn⟩ := ih (index + 1) r2 brk r' e
          refine ⟨content.length + n, ?_⟩
          rw [hn, rowEmit_gridTotals W pkg tp mgs index content ch lh r1 r2 he, hg1,
            List.append_assoc, ← List.replicate_add]

theorem foldl_add_cast (units : List Nat) (acc : ℚ) :
    units.foldl (fun (acc : ℚ) (size : Nat) => acc + (size : ℚ)) acc =
      acc + ((units.sum : Nat) : ℚ) := by
  induction units generalizing acc with
  | nil => simp
  | cons u rest ih =>
    simp only [List.foldl_cons, List.sum_cons, Nat.cast_add]
    rw [ih]
    ring

/-- With a non-empty list of units `customizeMaxGridSum` is their sum. -/
theorem customizeMaxGridSum_sum (pkg : Pkg) (contentProp : TableListContent)
    (h : contentProp.GridSizes ≠ []) :
    customizeMaxGridSum pkg contentProp = ((contentProp.GridSizes.sum : Nat) : ℚ) := by
  have hlen : contentProp.GridSizes.length ≠ 0 := by simpa using h
  simp only [customizeMaxGridSum, if_neg hlen, foldl_add_cast, zero_add]
  split
  · next heq => exact heq.symm
  · rfl

/-- With a non-empty list of content units the grid total of `Create` is the larger of
their sum and the number of header columns. -/
theorem createMaxGridSum_max (pkg : Pkg) (header : List Str) (tableProp : TableList)
    (rest : List TableList) (h : tableProp.ContentProp.GridSizes ≠ []) :
    createMaxGridSum pkg header (tableProp :: rest) =
      max ((tableProp.ContentProp.GridSizes.sum : Nat) : ℚ) (header.length : ℚ) := by
  simp only [createMaxGridSum, List.headD_cons, customizeMaxGridSum_sum pkg _ h]
  split
  · next hlt => exact (max_eq_right (le_of_lt hlt)).symm
  · next hge => exact (max_eq_left (not_lt.mp hge)).symm

/-- What `Create` passes as grid total: whenever it returns, every `ColWithMaxGridSum`
call it made, for header and content columns alike, was given `createMaxGridSum`; with a
non-empty header and content list there is one such call per header column at least. -/
theorem create_gridTotals {σ : Type} (W : World σ) (pkg : Pkg) (header : List Str)
    (contents : List (List Str)) (dff : Str) (prop : List TableList) (r : Run σ)
    (k : Nat) (r' : Run σ)
    (e : Create W pkg header contents dff prop r = some (k, r')) :
    ∃ n, gridTotals r'.log =
        gridTotals r.log ++ List.replicate n (createMaxGridSum pkg header prop) ∧
      (header ≠ [] → contents ≠ [] → header.length ≤ n) := by
  by_cases hh' : header.length = 0
  · simp only [Create, if_pos hh', Option.some.injEq, Prod.mk.injEq] at e
    refine ⟨0, by rw [← e.2]; simp, ?_⟩
    intro hh
    exact absurd (List.length_eq_zero.mp hh') hh
  by_cases hc' : contents.length = 0
  · simp only [Create, if_neg hh', if_pos hc', Option.some.injEq, Prod.mk.injEq] at e
    refine ⟨0, by rw [← e.2]; simp, ?_⟩
    intro _ hc
    exact absurd (List.length_eq_zero.mp hc') hc
  cases e0 : createHeader W pkg header (validProp pkg header dff prop)
      (createMaxGridSum pkg header prop) r with
  | none => simp [Create, hh', hc', e0] at e
  | some r0 =>
    cases el : createLoop W pkg (validProp pkg header dff prop)
        (createMaxGridSum pkg header prop) 0 contents r0 with
    | none => simp [Create, hh', hc', e0, el] at e
    | some res =>
      obtain ⟨brk, r2⟩ := res
      simp only [Create, if_neg hh', if_neg hc', e0, el, Option.some.injEq,
        Prod.mk.injEq] at e
      obtain ⟨n, hn⟩ := createLoop_gridTotals W pkg _ _ contents 0 r0 brk r2 el
      refine ⟨header.length + n, ?_, fun _ _ => by omega⟩
      rw [← e.2]
      simp only [Run.call]
      rw [gridTotals_snoc_other _ _ (by rfl), hn,
        createHeader_gridTotals W pkg header _ _ r r0 e0, List.append_assoc,
        ← List.replicate_add]

/-- C14: for every header, every list of content rows and every style given with a
non-empty list of content column units, whenever `Create` returns, the grid total it
passed to every `ColWithMaxGridSum` call, for header and content columns alike, is the
larger of the sum of the content column units and the number of header columns; and on a
well-shaped table with a non-empty header and at least one content row `Create` does
return, having made at least one such call per header column. -/
theorem create_grid_normalization {σ : Type} (W : World σ) (pkg : Pkg) (header : List Str)
    (contents : List (List Str)) (defaultFontFamily : Str) (tableProp : TableList)
    (rest : List TableList) (r : Run σ)
    (hunits : tableProp.ContentProp.GridSizes ≠ []) :
    (∀ k r', Create W pkg header contents defaultFontFamily (tableProp :: rest) r =
        some (k, r') →
      ∃ n, gridTotals r'.log = gridTotals r.log ++ List.replicate n
        (max ((tableProp.ContentProp.GridSizes.sum : Nat) : ℚ) (header.length : ℚ))) ∧
    (header ≠ [] → 1 ≤ contents.length →
      WellShaped pkg header contents defaultFontFamily (tableProp :: rest) →
      ∃ k r' n, Create W pkg header contents defaultFontFamily (tableProp :: rest) r =
          some (k, r') ∧
        gridTotals r'.log = gridTotals r.log ++ List.replicate n
          (max ((tableProp.ContentProp.GridSizes.sum : Nat) : ℚ) (header.length : ℚ)) ∧
        header.length ≤ n) := by
  constructor
  · intro k r' e
    obtain ⟨n, hn, -⟩ := create_gridTotals W pkg header contents defaultFontFamily
      (tableProp :: rest) r k r' e
    rw [createMaxGridSum_max pkg header tableProp rest hunits] at hn
    exact ⟨n, hn⟩
  · intro hh hc hshape
    have hc' : contents ≠ [] := by
      intro h
      rw [h] at hc
      simp at hc
    obtain ⟨r0, k, r', -, e, -⟩ :=
      create_spec W pkg header contents defaultFontFamily (tableProp :: rest) r hh hc' hshape
    obtain ⟨n, hn, hle⟩ := create_gridTotals W pkg header contents defaultFontFamily
      (tableProp :: rest) r k r' e
    rw [createMaxGridSum_max pkg header tableProp rest hunits] at hn
    exact ⟨k, r', n, e, hn, hle hh hc'⟩

theorem create_grid_normalization_witness :
    (∃ k r' n, Create (pageWorld 1000) simplePkg [['a'], ['b'], ['c'], ['d'], ['e']]
        [[['x'], ['y']]] [] [fiveHeaderStyle] ⟨0, []⟩ = some (k, r') ∧
      gridTotals r'.log = gridTotals ([] : List Call) ++ List.replicate n
        (max ((fiveHeaderStyle.ContentProp.GridSizes.sum : Nat) : ℚ)
          (([['a'], ['b'], ['c'], ['d'], ['e']] : List Str).length : ℚ)) ∧
      ([['a'], ['b'], ['c'], ['d'], ['e']] : List Str).length ≤ n) ∧
    max ((fiveHeaderStyle.ContentProp.GridSizes.sum : Nat) : ℚ)
      (([['a'], ['b'], ['c'], ['d'], ['e']] : List Str).length : ℚ) = 5 :=
  ⟨(create_grid_normalization (pageWorld 1000) simplePkg [['a'], ['b'], ['c'], ['d'], ['e']]
    [[['x'], ['y']]] [] fiveHeaderStyle [] ⟨0, []⟩ (by simp [fiveHeaderStyle])).2
    (by simp) (by simp)
    ⟨by simp [validProp, simplePkg, fiveHeaderStyle],
      by simp [validProp, simplePkg, fiveHeaderStyle],
      by simp [validProp, simplePkg, fiveHeaderStyle]⟩,
   by norm_num [fiveHeaderStyle]⟩

/-- The two grid examples: units [3,3,3,3] with 4 header columns give the grid total 12,
units [1,1] with 5 header columns give 5. -/
theorem createMaxGridSum_examples :
    createMaxGridSum simplePkg [['a'], ['b'], ['c'], ['d']]
      [{ oneColumnStyle 0 with ContentProp := ⟨Family.Arial, Style.Normal, 4, [3, 3, 3, 3]⟩ }]
      = 12 ∧
    createMaxGridSum simplePkg [['a'], ['b'], ['c'], ['d'], ['e']] [fiveHeaderStyle] = 5 := by
  constructor
  · norm_num [createMaxGridSum, customizeMaxGridSum, simplePkg, oneColumnStyle]
  · norm_num [createMaxGridSum, customizeMaxGridSum, simplePkg, fiveHeaderStyle]

set_option maxRecDepth 4000 in
/-- C15 (defect): page height 50 with margins of 10, a one-column table whose rows
measure 4, alternate background `grey`, background white before the call. Rows 0 and 1 are
emitted; for row 2 `SetBackgroundColor(grey)` is issued before the overflow test, the
test fires, and `Create` returns 2 without reverting: the background calls are grey,
white, grey, and the background at return is grey. -/
theorem create_background_leaks :
    (Create (bgWorld 50) simplePkg [['h']] [[['a']], [['b']], [['c']]] [] [stripedStyle]
      ⟨(0, NewWhite), []⟩).map
        (fun x => (x.1, x.2.st.2, backgroundCalls x.2.log, rowTexts x.2.log)) =
      some (2, grey, [grey, NewWhite, grey], [[['h']], [], [['a']], [['b']]]) ∧
    grey ≠ NewWhite := by
  constructor
  · norm_num [Create, createHeader, createLoop, rowProbe, rowEmit, rowClosure,
      calcLinesHeight, calcLinesLoop, customizeMaxGridSum, createMaxGridSum, validProp,
      simplePkg, bgWorld, stripedStyle, oneColumnStyle, overflows, maxOffsetPage, Run.call,
      Run.read, setAlternatedBackground, resetBackground, drawSeparatorLine, lineHeight,
      rowTexts, Call.rowCells, ColCall.texts, backgroundCalls, Call.background]
    exact ⟨rfl, rfl⟩
  · decide

set_option maxRecDepth 4000 in
/-- C19 (defect): five header columns of one unit each, two content columns of one unit
each, useful page width 190. `Create` passes the grid total 5 to all seven
`ColWithMaxGridSum` calls, so each column is drawn at a fifth of the width, 38; but
`calcLinesHeight` divides the content units by their own sum 2 and measures the two content
cells at width 95. The divisor 2 is less than the number of columns, and for the units
[0, 0] it is 0. -/
theorem measured_width_differs_from_drawn :
    (Create (pageWorld 1000) simplePkg [['a'], ['b'], ['c'], ['d'], ['e']]
      [[['x'], ['y']]] [] [fiveHeaderStyle] ⟨0, []⟩).map
        (fun x => (measuredWidths x.2.log, gridTotals x.2.log)) =
      some ([38, 38, 38, 38, 38, 95, 95], [5, 5, 5, 5, 5, 5, 5]) ∧
    customizeMaxGridSum simplePkg
      (validProp simplePkg [['a'], ['b'], ['c'], ['d'], ['e']] [] [fiveHeaderStyle]).ContentProp
      = 2 ∧
    createMaxGridSum simplePkg [['a'], ['b'], ['c'], ['d'], ['e']] [fiveHeaderStyle] = 5 ∧
    customizeMaxGridSum simplePkg ⟨Family.Arial, Style.Normal, 4, [0, 0]⟩ = 0 := by
  refine ⟨?_, ?_, ?_, ?_⟩
  · norm_num [Create, createHeader, createLoop, rowProbe, rowEmit, rowClosure,
      calcLinesHeight, calcLinesLoop, customizeMaxGridSum, createMaxGridSum, validProp,
      simplePkg, pageWorld, fiveHeaderStyle, overflows, maxOffsetPage, Run.call,
      Run.read, setAlternatedBackground, resetBackground, drawSeparatorLine, lineHeight,
      measuredWidths, Call.measuredWidth, gridTotals, Call.gridTotals, ColCall.gridTotal]
    exact ⟨rfl, rfl⟩
  · norm_num [customizeMaxGridSum, validProp, simplePkg, fiveHeaderStyle]
  · norm_num [createMaxGridSum, customizeMaxGridSum, simplePkg, fiveHeaderStyle]
  · norm_num [customizeMaxGridSum, simplePkg]

/-- C11 (defect): on a surface that measures the whole text "ab" as 1 but the single
character "a" as 5, at width 2 the text is short (1 < 2), yet `Add` and `GetLinesQuantity`
call `splitText` before they test the width; `getLineMaxStr` finds that the first
character alone does not fit and hands the whole text back, so `splitText` never returns
and no line is drawn. -/
theorem short_text_diverges :
    shrinkingPdf.GetStringWidth (textToUnicode shrinkingPdf ['a', 'b'] plainProp) < 2 ∧
    getLineMaxStr shrinkingPdf 2 ['a', 'b'] = ([], ['a', 'b']) ∧
    (∀ fuel, splitTextFuel fuel shrinkingPdf 2
      (textToUnicode shrinkingPdf ['a', 'b'] plainProp) = none) ∧
    GetLinesQuantity shrinkingPdf ['a', 'b'] plainProp 2 = none ∧
    Add shrinkingPdf unitFont ['a', 'b'] ⟨0, 0, 2, 0⟩ plainProp = none := by
  have hw : shrinkingPdf.GetStringWidth ['a'] > 2 := by norm_num [shrinkingPdf]
  have hall : ∀ fuel, splitTextFuel fuel shrinkingPdf 2
      (textToUnicode shrinkingPdf ['a', 'b'] plainProp) = none := by
    intro fuel
    rw [textToUnicode_plainProp]
    simp only [splitTextFuel, shrinkingPdf, Bool.false_eq_true, if_false]
    exact splitTextLoop_stuck _ 2 'a' ['b'] hw fuel []
  have hs : splitText shrinkingPdf 2 (textToUnicode shrinkingPdf ['a', 'b'] plainProp) =
      none := hall _
  refine ⟨?_, getLineMaxStr_cons_wide shrinkingPdf 2 'a' ['b'] hw, hall, ?_, ?_⟩
  · rw [textToUnicode_plainProp]
    norm_num [shrinkingPdf]
  · simp only [GetLinesQuantity, hs]
  · simp only [Add, hs]

end Maroto
